import Mathlib

/-!
Verification development for the `json_parser` crate (files
`src/json_parser/src/token.rs`, `parser.rs`, `error.rs`, `ast.rs`).

Modelling conventions:
* Rust `&str` values are modelled as `List Char`.  The Rust lexer slices the
  input by byte positions; in every state those byte positions sit on char
  boundaries delimiting exactly the characters consumed, so the slices are
  modelled by returning the consumed characters directly.  The byte counters
  `position` / `read_position` and the total byte length of the input are kept
  as `Nat` fields because the end-of-file tests compare them
  (`self.position >= self.input.len()`).
* `str::len()` (a byte count) is modelled by `utf8Len`, the sum of the UTF-8
  sizes of the characters.
* The `usize` subtraction `column - origin.len()` in
  `ExpectedTokenError::with_offset` is modelled over `Int`, so that the
  would-be unsigned underflow (a panic in Rust debug builds) is visible as a
  negative value.
* `f64::from_str` is modelled by `f64_parse_ok`, which only decides
  acceptance; the parser never inspects the numeric value, and number tokens
  are drawn from the alphabet `[0-9.+-eE]`, so the special forms
  (`inf`/`nan`), which need other letters, cannot occur.
-/

/-- Byte length of a list of characters, modelling Rust `str::len()`. -/
def utf8Len (cs : List Char) : Nat := (cs.map Char.utf8Size).sum

/-- `IllegalString` from token.rs. -/
inductive IllegalString where
  | UnescapedNewLine
  | UnescapedTab
  | InvalidUnicode
  | InvalidEscape
  | MissingClosingQuote
deriving DecidableEq, Repr

/-- `IllegalNumber` from token.rs.  The Rust `ParseFloatError` payload carries
no information the parser inspects, so the constructor is nullary here. -/
inductive IllegalNumber where
  | ParseFloatError
  | LeadingZero
  | MissingExponent
  | MinusMissingDigit
  | MissingFraction
  | InvalidFractionPart
deriving DecidableEq, Repr

/-- `IllegalReason` from token.rs. -/
inductive IllegalReason where
  | Character (c : Char)
  | Number (n : IllegalNumber)
  | String (s : IllegalString)
deriving DecidableEq, Repr

/-- `TokenKind` from token.rs. -/
inductive TokenKind where
  | String
  | Number
  | True
  | False
  | Null
  | LBrace
  | RBrace
  | LBracket
  | RBracket
  | Colon
  | Comma
  | Illegal (reason : Option IllegalReason)
  | Eof
deriving DecidableEq, Repr

/-- `Token` from token.rs. -/
structure Token where
  kind : TokenKind
  origin : List Char
  start_column : Nat
deriving DecidableEq, Repr

/-- `Token::default()`: kind `Illegal(None)`, empty origin, column 0. -/
def Token.default : Token := ⟨.Illegal none, [], 0⟩

/-- `Lexer` from token.rs.  `inputLen` is `self.input.len()` (bytes); `chars`
is the remaining character iterator (everything after the current char `ch`). -/
structure Lexer where
  inputLen : Nat
  position : Nat
  read_position : Nat
  row : Nat
  column : Nat
  ch : Option Char
  chars : List Char
deriving DecidableEq, Repr

/-- `Lexer::read_char`. -/
def Lexer.read_char (l : Lexer) : Lexer :=
  match l.chars with
  | c :: rest =>
      { l with ch := some c, column := l.column + 1,
               position := l.read_position,
               read_position := l.read_position + c.utf8Size,
               chars := rest }
  | [] =>
      { l with ch := none,
               position := l.read_position,
               read_position := l.read_position + 1 }

/-- `Lexer::new`. -/
def Lexer.new (input : List Char) : Lexer :=
  Lexer.read_char
    { inputLen := utf8Len input, position := 0, read_position := 0,
      row := 1, column := 0, ch := none, chars := input }

/-- Iteration bound for the lexer's read loops: every `read_char` from a
state with a current character strictly decreases it, and when it reaches 0
the current character is exhausted, so every loop below runs at most
`measure` further iterations.  The loops are written with this bound as
structural fuel; their `0` base cases coincide with the loop's own
characters-exhausted exit, so the fuelled form is exact (see the
`measure_le` / `fuel` lemmas below). -/
def Lexer.measure (l : Lexer) : Nat :=
  2 * l.chars.length + (if l.ch.isSome then 1 else 0)

theorem Lexer.read_char_measure_le (l : Lexer) : l.read_char.measure ≤ l.measure := by
  unfold Lexer.read_char Lexer.measure
  cases hc : l.chars <;> cases hch : l.ch <;> simp <;> omega

theorem Lexer.read_char_measure_lt (l : Lexer) (h : l.ch.isSome) :
    l.read_char.measure < l.measure := by
  unfold Lexer.read_char Lexer.measure
  cases hc : l.chars <;> cases hch : l.ch <;> simp_all

theorem Lexer.measure_zero_ch (l : Lexer) (h : l.measure = 0) : l.ch = none := by
  unfold Lexer.measure at h
  cases hch : l.ch <;> simp_all

/-- The `loop` of `Lexer::skip_whitespace`. -/
def Lexer.skipWSLoop : Nat → Lexer → Lexer
  | 0, l => l
  | n + 1, l =>
      match l.ch with
      | some ' ' | some '\t' | some '\r' => Lexer.skipWSLoop n l.read_char
      | some '\n' =>
          Lexer.skipWSLoop n (Lexer.read_char { l with row := l.row + 1, column := 0 })
      | _ => l

/-- `Lexer::skip_whitespace`. -/
def Lexer.skip_whitespace (l : Lexer) : Lexer := Lexer.skipWSLoop l.measure l

/-- The `while` loop of `Lexer::read_ident` (ASCII-lowercase characters),
returning the consumed characters — the slice `&input[start_pos..position]`. -/
def Lexer.identLoop : Nat → Lexer → List Char × Lexer
  | 0, l => ([], l)
  | n + 1, l =>
      match l.ch with
      | some c =>
          if c.isLower then
            match Lexer.identLoop n l.read_char with
            | (cs, l') => (c :: cs, l')
          else ([], l)
      | none => ([], l)

/-- `Lexer::read_ident`. -/
def Lexer.read_ident (l : Lexer) : List Char × Lexer := Lexer.identLoop l.measure l

/-- Characters accepted by `Lexer::read_number`'s loop:
`'0'..='9' | '.' | '-' | '+' | 'e' | 'E'`. -/
def isNumChar (c : Char) : Bool :=
  c.isDigit || c = '.' || c = '-' || c = '+' || c = 'e' || c = 'E'

/-- The `while` loop of `Lexer::read_number`, returning the consumed
characters — the slice `&input[start_pos..position]`. -/
def Lexer.numLoop : Nat → Lexer → List Char × Lexer
  | 0, l => ([], l)
  | n + 1, l =>
      match l.ch with
      | some c =>
          if isNumChar c then
            match Lexer.numLoop n l.read_char with
            | (cs, l') => (c :: cs, l')
          else ([], l)
      | none => ([], l)

/-- `Lexer::read_number`. -/
def Lexer.read_number (l : Lexer) : List Char × Lexer := Lexer.numLoop l.measure l

/-- Rust `u8::is_ascii_hexdigit` on a character. -/
def isHexDigit (c : Char) : Bool :=
  c.isDigit || ('a' ≤ c && c ≤ 'f') || ('A' ≤ c && c ≤ 'F')

/-- Numeric value of one hexadecimal digit. -/
def hexDigitVal (c : Char) : Nat :=
  if c.isDigit then c.toNat - '0'.toNat
  else if 'a' ≤ c && c ≤ 'f' then c.toNat - 'a'.toNat + 10
  else c.toNat - 'A'.toNat + 10

/-- Value of a hexadecimal digit string, modelling
`u32::from_str_radix(s, 16)` on the 4-digit strings it is applied to (which
always fit in `u32`, so the parse itself cannot fail). -/
def hexVal (cs : List Char) : Nat := cs.foldl (fun a c => 16 * a + hexDigitVal c) 0

/-- The `for _ in 0..4` loop of `Lexer::is_legal_unicode`: consume up to `n`
hex digits; the first component is `some digits` when all `n` were hex
digits, the second the consumed characters. -/
def Lexer.hexRun : Nat → Lexer → Option (List Char) × List Char × Lexer
  | 0, l => (some [], [], l)
  | n + 1, l =>
      match l.ch with
      | some c =>
          if isHexDigit c then
            match Lexer.hexRun n l.read_char with
            | (d, cons, l') => (d.map (c :: ·), c :: cons, l')
          else (none, [], l)
      | none => (none, [], l)

/-- `Lexer::is_legal_unicode`, additionally returning the consumed
characters so that the string slice can be reconstructed. -/
def Lexer.is_legal_unicode (l : Lexer) : Option IllegalReason × List Char × Lexer :=
  match Lexer.hexRun 4 l with
  | (none, cons, l') => (some (.String .InvalidUnicode), cons, l')
  | (some ds, cons, l') =>
      (if hexVal ds ≤ 0x10FFFF then none else some (.String .InvalidUnicode), cons, l')

/-- The escape characters accepted after a backslash:
`'"' | '\\' | '/' | 'b' | 'f' | 'n' | 'r' | 't'`. -/
def isEscapable (c : Char) : Bool :=
  c = '"' || c = '\\' || c = '/' || c = 'b' || c = 'f' || c = 'n' || c = 'r' || c = 't'

theorem Lexer.hexRun_measure_le (n : Nat) (l : Lexer) :
    (Lexer.hexRun n l).2.2.measure ≤ l.measure := by
  induction n generalizing l with
  | zero => simp [Lexer.hexRun]
  | succ n ih =>
      unfold Lexer.hexRun
      cases h : l.ch with
      | none => simp
      | some c =>
          by_cases hx : isHexDigit c
          · simpa [hx] using (ih l.read_char).trans (Lexer.read_char_measure_le l)
          · simp [hx]

/-- The update of `illegal_reason` in the `'\t'` / `'\n'` / `_` arms of the
`read_string` loop: the guarded arms record a defect only when none is
recorded yet. -/
def updateStrReason (ch : Char) (reason : Option IllegalReason) : Option IllegalReason :=
  if ch = '\t' ∧ reason = none then some (.String .UnescapedTab)
  else if ch = '\n' ∧ reason = none then some (.String .UnescapedNewLine)
  else reason

/-- The `while let Some(ch)` loop of `Lexer::read_string`.  Returns the
consumed characters (closing quote excluded), whether a closing quote was
found, the final `illegal_reason`, and the final lexer state.  Every
iteration consumes at least one character from a state with a current
character, so `measure` bounds the iteration count, and the fuel-exhausted
base case coincides with the loop's own `ch = None` exit. -/
def Lexer.strLoop : Nat → Lexer → Option IllegalReason →
    List Char × Bool × Option IllegalReason × Lexer
  | 0, l, reason => ([], false, reason, l)
  | n + 1, l, reason =>
    match l.ch with
    | none => ([], false, reason, l)
    | some ch =>
      if ch = '"' then ([], true, reason, l.read_char)
      else if ch = '\\' then
        match (Lexer.read_char l).ch with
        | some e =>
            if isEscapable e then
              match Lexer.strLoop n (Lexer.read_char (Lexer.read_char l)) reason with
              | (cs, cl, r, l') => (ch :: e :: cs, cl, r, l')
            else if reason = none then
              if e = 'u' then
                match Lexer.is_legal_unicode (Lexer.read_char (Lexer.read_char l)) with
                | (r1, hx, l3) =>
                  match Lexer.strLoop n l3 r1 with
                  | (cs, cl, r, l') => (ch :: 'u' :: (hx ++ cs), cl, r, l')
              else
                match Lexer.strLoop n (Lexer.read_char l) (some (.String .InvalidEscape)) with
                | (cs, cl, r, l') => (ch :: cs, cl, r, l')
            else
              match Lexer.strLoop n (Lexer.read_char l) reason with
              | (cs, cl, r, l') => (ch :: cs, cl, r, l')
        | none =>
            if reason = none then
              match Lexer.strLoop n (Lexer.read_char l) (some (.String .InvalidEscape)) with
              | (cs, cl, r, l') => (ch :: cs, cl, r, l')
            else
              match Lexer.strLoop n (Lexer.read_char l) reason with
              | (cs, cl, r, l') => (ch :: cs, cl, r, l')
      else
        match Lexer.strLoop n l.read_char (updateStrReason ch reason) with
        | (cs, cl, r, l') => (ch :: cs, cl, r, l')

/-- `Lexer::read_string`: consume the opening quote, run the scan loop, and
on a missing closing quote replace the recorded reason by
`MissingClosingQuote`.  Returns the string slice (the characters between the
quotes, or everything consumed when unterminated) and the reason. -/
def Lexer.read_string (l : Lexer) : List Char × Option IllegalReason × Lexer :=
  match Lexer.strLoop (Lexer.read_char l).measure (Lexer.read_char l) none with
  | (cs, closed, reason, l') =>
      if closed then (cs, reason, l')
      else (cs, some (.String .MissingClosingQuote), l')

/-- The pattern `bytes.windows(2).any(|w| w == b".e" || w == b".E")` from the
number classification: some adjacent pair is `.e` or `.E`. -/
def hasDotExp : List Char → Bool
  | '.' :: 'e' :: _ => true
  | '.' :: 'E' :: _ => true
  | _ :: rest => hasDotExp rest
  | [] => false

/-- The first two characters of a run, for the `[b'0', .., ..]` patterns. -/
def firstTwo : List Char → Option (Char × Char)
  | a :: b :: _ => some (a, b)
  | _ => none

/-- The number-run classification in `Lexer::next_token`
(`match num.as_bytes()`), as an ordered first-match-wins rule list.  The run
consists of characters from `[0-9.+-eE]`, all ASCII, so byte patterns and
character patterns coincide. -/
def classifyNumber (num : List Char) : TokenKind :=
  if (firstTwo num).any (fun p => p.1 == '0' && p.2.isDigit) then
    .Illegal (some (.Number .LeadingZero))
  else if (firstTwo num).any (fun p => p.1 == '0' && (p.2 == 'e' || p.2 == 'E')) then
    .Illegal (some (.Number .MissingExponent))
  else if (firstTwo num).any (fun p => p.1 == '-' && p.2 == '.') then
    .Illegal (some (.Number .InvalidFractionPart))
  else if num.getLast? = some '.' then
    .Illegal (some (.Number .MissingFraction))
  else if num.getLast? = some '-' then
    .Illegal (some (.Number .MinusMissingDigit))
  else if num.getLast? = some '+' then
    .Illegal (some (.Number .MissingExponent))
  else if hasDotExp num then
    .Illegal (some (.Number .MissingFraction))
  else .Number

/-- Helper for the single-character delimiter arms of `next_token`: the token
origin is `&input[position..read_position]`, i.e. the current character, and
the lexer advances by one `read_char`. -/
def Lexer.singleChar (l : Lexer) (kind : TokenKind) (c : Char) (start_column : Nat) :
    Token × Lexer :=
  (⟨kind, [c], start_column⟩, l.read_char)

/-- The dispatch of `Lexer::next_token` after `skip_whitespace` has run.  In
the final catch-all with no current character (`ch = None` yet
`position < input.len()`, unreachable from `Lexer::new`) the Rust slice
`&input[position..read_position]` would be out of bounds; the origin is
modelled as the empty slice there. -/
def Lexer.tokenAfterWS (l : Lexer) : Token × Lexer :=
  let start_column := l.column
  match l.ch with
  | some '{' => Lexer.singleChar l .LBrace '{' start_column
  | some '}' => Lexer.singleChar l .RBrace '}' start_column
  | some '[' => Lexer.singleChar l .LBracket '[' start_column
  | some ']' => Lexer.singleChar l .RBracket ']' start_column
  | some ':' => Lexer.singleChar l .Colon ':' start_column
  | some ',' => Lexer.singleChar l .Comma ',' start_column
  | some '"' =>
      let (str, illegal_reason, l') := l.read_string
      let kind := match illegal_reason with
        | some reason => TokenKind.Illegal (some reason)
        | none => TokenKind.String
      (⟨kind, str, start_column⟩, l')
  | some 't' | some 'f' | some 'n' =>
      let (ident, l') := l.read_ident
      let kind :=
        if ident = "true".toList then TokenKind.True
        else if ident = "false".toList then TokenKind.False
        else if ident = "null".toList then TokenKind.Null
        else TokenKind.Illegal none
      (⟨kind, ident, start_column⟩, l')
  | some c =>
      if c = '-' ∨ c.isDigit then
        let (num, l') := l.read_number
        (⟨classifyNumber num, num, start_column⟩, l')
      else if l.position ≥ l.inputLen then
        (⟨.Eof, [], start_column + 1⟩, l.read_char)
      else
        (⟨.Illegal none, [c], start_column⟩, l.read_char)
  | none =>
      if l.position ≥ l.inputLen then
        (⟨.Eof, [], start_column + 1⟩, l.read_char)
      else
        (⟨.Illegal none, [], start_column⟩, l.read_char)

/-- `Lexer::next_token`: skip whitespace, then dispatch on the current
character. -/
def Lexer.next_token (l0 : Lexer) : Token × Lexer :=
  Lexer.tokenAfterWS l0.skip_whitespace

/-- `ExpectedTokenError` from error.rs.  `column` is an `Int` so that the
`usize` subtraction in `with_offset` (which panics on underflow in debug
builds and wraps in release builds) is visible as a negative value. -/
structure ExpectedTokenError where
  expected : List TokenKind
  actual : TokenKind
  origin : List Char
  row : Nat
  column : Int
deriving DecidableEq, Repr

/-- `ExpectedTokenError::with_offset`: stores `column - origin.len()`
(`origin.len()` is a byte count). -/
def ExpectedTokenError.with_offset (expected : List TokenKind) (actual : TokenKind)
    (origin : List Char) (row : Nat) (column : Nat) : ExpectedTokenError :=
  { expected := expected, actual := actual, origin := origin, row := row,
    column := (column : Int) - (utf8Len origin : Int) }

/-- The column printed by the `Display` impl for `ExpectedTokenError`:
`self.column - self.origin.len()` — it subtracts the origin's byte length a
second time from the already-offset stored column. -/
def ExpectedTokenError.displayColumn (e : ExpectedTokenError) : Int :=
  e.column - (utf8Len e.origin : Int)

/-- `JsonValue` from ast.rs.  A `JsonProperty { key, value }` is modelled as
the pair `(key, value)`; `Number` keeps the token text instead of the `f64`
it converts to, since the parser never inspects the numeric value. -/
inductive JsonValue where
  | Null
  | Boolean (b : Bool)
  | Number (literal : List Char)
  | String (s : List Char)
  | Object (properties : List (List Char × JsonValue))
  | Array (items : List JsonValue)
deriving Repr

/-- `Parser` from parser.rs: the lexer plus the two-token lookahead buffer. -/
structure ParserState where
  lexer : Lexer
  current_token : Token
  peek_token : Token
deriving Repr

/-- `Parser::next_token`: shift `peek_token` into `current_token` and pull a
fresh token from the lexer. -/
def ParserState.next_token (s : ParserState) : ParserState :=
  let (t, l') := s.lexer.next_token
  { lexer := l', current_token := s.peek_token, peek_token := t }

/-- `Parser::new`: default tokens, then one `next_token` to prime the
lookahead. -/
def ParserState.new (input : List Char) : ParserState :=
  ParserState.next_token
    { lexer := Lexer.new input, current_token := Token.default, peek_token := Token.default }

/-- `Parser::expect_peek`: structural kind comparison (the derived
`PartialEq`, payload included), then advance on success. -/
def ParserState.expect_peek (s : ParserState) (expected : TokenKind) :
    Except ExpectedTokenError ParserState :=
  if s.peek_token.kind ≠ expected then
    .error (ExpectedTokenError.with_offset [expected] s.peek_token.kind
      s.peek_token.origin s.lexer.row s.lexer.column)
  else .ok s.next_token

/-- One optional leading sign, for `f64_parse_ok`. -/
def stripSign : List Char → List Char
  | '+' :: rest => rest
  | '-' :: rest => rest
  | cs => cs

/-- The exponent part of the `f64::from_str` grammar: empty, or `e`/`E`,
an optional sign, and at least one digit reaching the end. -/
def expPartOk : List Char → Bool
  | [] => true
  | 'e' :: rest => expTail rest
  | 'E' :: rest => expTail rest
  | _ => false
where
  expTail (rest : List Char) : Bool :=
    let rest := stripSign rest
    decide (rest ≠ []) && rest.all Char.isDigit

/-- Acceptance of `f64::from_str` (`literal.parse::<f64>().is_ok()`)
restricted to the lexer's number alphabet `[0-9.+-eE]`: an optional sign,
then `digits [. digits]` or `. digits` with at least one digit overall, then
an optional exponent.  The special forms `inf`/`infinity`/`nan` require
letters outside the alphabet and cannot occur. -/
def f64_parse_ok (cs : List Char) : Bool :=
  let cs := stripSign cs
  let int_part := cs.takeWhile Char.isDigit
  let rest := cs.dropWhile Char.isDigit
  match rest with
  | '.' :: rest2 =>
      let frac := rest2.takeWhile Char.isDigit
      (decide (int_part ≠ []) || decide (frac ≠ [])) &&
        expPartOk (rest2.dropWhile Char.isDigit)
  | _ => decide (int_part ≠ []) && expPartOk rest

/-- The seven token kinds accepted at the start of a value, in the order the
error arm of `Parser::parse_value` lists them. -/
def valueKinds : List TokenKind :=
  [.String, .Number, .True, .False, .Null, .LBrace, .LBracket]

/-- `Parser::parse_number`: parse the literal as `f64`; failure produces an
`ExpectedTokenError` expecting `Number` (the Rust source writes the bare
`TokenKind::Illegal` constructor for `actual`; it is modelled as
`Illegal none`). -/
def ParserState.parse_number (s : ParserState) (literal : List Char) :
    Except ExpectedTokenError JsonValue :=
  if f64_parse_ok literal then .ok (.Number literal)
  else
    .error (ExpectedTokenError.with_offset [.Number] (.Illegal none) literal
      s.lexer.row s.lexer.column)

mutual

/-- `Parser::parse_value`, fuelled: `none` means the fuel ran out, never that
the Rust function failed.  On success it returns the value and the parser
state after the trailing `self.next_token()`. -/
def parse_value : Nat → ParserState → Option (Except ExpectedTokenError (JsonValue × ParserState))
  | 0, _ => none
  | fuel + 1, s =>
      match s.peek_token.kind with
      | .String => some (.ok (.String s.peek_token.origin, s.next_token))
      | .Number =>
          match s.parse_number s.peek_token.origin with
          | .error e => some (.error e)
          | .ok v => some (.ok (v, s.next_token))
      | .True => some (.ok (.Boolean true, s.next_token))
      | .False => some (.ok (.Boolean false, s.next_token))
      | .Null => some (.ok (.Null, s.next_token))
      | .LBrace =>
          match parse_object fuel s with
          | none => none
          | some (.error e) => some (.error e)
          | some (.ok (v, s1)) => some (.ok (v, s1.next_token))
      | .LBracket =>
          match parse_array fuel s with
          | none => none
          | some (.error e) => some (.error e)
          | some (.ok (v, s1)) => some (.ok (v, s1.next_token))
      | _ =>
          some (.error (ExpectedTokenError.with_offset valueKinds s.peek_token.kind
            s.peek_token.origin s.lexer.row s.lexer.column))

/-- `Parser::parse_property`: key string, colon, value. -/
def parse_property : Nat →
    ParserState → Option (Except ExpectedTokenError ((List Char × JsonValue) × ParserState))
  | 0, _ => none
  | fuel + 1, s =>
      match s.expect_peek .String with
      | .error e => some (.error e)
      | .ok s1 =>
          let key := s1.current_token.origin
          match s1.expect_peek .Colon with
          | .error e => some (.error e)
          | .ok s2 =>
              match parse_value fuel s2 with
              | none => none
              | some (.error e) => some (.error e)
              | some (.ok (v, s3)) => some (.ok ((key, v), s3))

/-- `Parser::parse_array`: `[`, then either an immediate `]` (empty array,
`]` left in the lookahead) or the element loop. -/
def parse_array : Nat → ParserState → Option (Except ExpectedTokenError (JsonValue × ParserState))
  | 0, _ => none
  | fuel + 1, s =>
      match s.expect_peek .LBracket with
      | .error e => some (.error e)
      | .ok s1 =>
          if s1.peek_token.kind = .RBracket then some (.ok (.Array [], s1))
          else array_loop fuel s1 []

/-- The element loop of `Parser::parse_array`: parse a value, then `,` to
continue or `]` to stop (the `]` stays in the lookahead). -/
def array_loop : Nat → ParserState → List JsonValue →
    Option (Except ExpectedTokenError (JsonValue × ParserState))
  | 0, _, _ => none
  | fuel + 1, s, items =>
      match parse_value fuel s with
      | none => none
      | some (.error e) => some (.error e)
      | some (.ok (v, s1)) =>
          match s1.peek_token.kind with
          | .Comma => array_loop fuel s1.next_token (items ++ [v])
          | .RBracket => some (.ok (.Array (items ++ [v]), s1))
          | _ =>
              some (.error (ExpectedTokenError.with_offset [.Comma, .RBracket]
                s1.peek_token.kind s1.peek_token.origin s1.lexer.row s1.lexer.column))

/-- `Parser::parse_object`: `{`, then either an immediate `}` (empty object,
`}` left in the lookahead) or the property loop. -/
def parse_object : Nat → ParserState → Option (Except ExpectedTokenError (JsonValue × ParserState))
  | 0, _ => none
  | fuel + 1, s =>
      match s.expect_peek .LBrace with
      | .error e => some (.error e)
      | .ok s1 =>
          if s1.peek_token.kind = .RBrace then some (.ok (.Object [], s1))
          else object_loop fuel s1 []

/-- The property loop of `Parser::parse_object`: parse a property, then `,`
to continue or `}` to stop (the `}` stays in the lookahead). -/
def object_loop : Nat → ParserState → List (List Char × JsonValue) →
    Option (Except ExpectedTokenError (JsonValue × ParserState))
  | 0, _, _ => none
  | fuel + 1, s, items =>
      match parse_property fuel s with
      | none => none
      | some (.error e) => some (.error e)
      | some (.ok (p, s1)) =>
          match s1.peek_token.kind with
          | .Comma => object_loop fuel s1.next_token (items ++ [p])
          | .RBrace => some (.ok (.Object (items ++ [p]), s1))
          | _ =>
              some (.error (ExpectedTokenError.with_offset [.Comma, .RBrace]
                s1.peek_token.kind s1.peek_token.origin s1.lexer.row s1.lexer.column))

end

/-- `Parser::parse_root_object`: parse the object, advance once, and require
`(current_token, peek_token) = (RBrace, Eof)`; otherwise the error expects
exactly `Eof` at the peek token. -/
def parse_root_object (fuel : Nat) (s : ParserState) :
    Option (Except ExpectedTokenError JsonValue) :=
  match parse_object fuel s with
  | none => none
  | some (.error e) => some (.error e)
  | some (.ok (v, s1)) =>
      let s2 := s1.next_token
      if s2.current_token.kind = .RBrace ∧ s2.peek_token.kind = .Eof then some (.ok v)
      else
        some (.error (ExpectedTokenError.with_offset [.Eof] s2.peek_token.kind
          s2.peek_token.origin s2.lexer.row s2.lexer.column))

/-- `Parser::parse_root_array`: as `parse_root_object` with brackets. -/
def parse_root_array (fuel : Nat) (s : ParserState) :
    Option (Except ExpectedTokenError JsonValue) :=
  match parse_array fuel s with
  | none => none
  | some (.error e) => some (.error e)
  | some (.ok (v, s1)) =>
      let s2 := s1.next_token
      if s2.current_token.kind = .RBracket ∧ s2.peek_token.kind = .Eof then some (.ok v)
      else
        some (.error (ExpectedTokenError.with_offset [.Eof] s2.peek_token.kind
          s2.peek_token.origin s2.lexer.row s2.lexer.column))

/-- `Parser::parse`: dispatch on the peeked root token; anything but `{` or
`[` is rejected immediately (the error reports the (default) current token,
as the Rust macro invocation does). -/
def ParserState.parse (fuel : Nat) (s : ParserState) :
    Option (Except ExpectedTokenError JsonValue) :=
  match s.peek_token.kind with
  | .LBrace => parse_root_object fuel s
  | .LBracket => parse_root_array fuel s
  | _ =>
      some (.error (ExpectedTokenError.with_offset [.LBrace, .LBracket]
        s.current_token.kind s.current_token.origin s.lexer.row s.lexer.column))

/-- Fuel sufficient for any input (proved in the termination theorem):
linear in the input length. -/
def fuelBound (input : List Char) : Nat := 8 * input.length + 16

/-- End-to-end parse of an input string: `Parser::new` + `Parser::parse`,
with enough fuel that the fuel never runs out. -/
def parseInput (input : List Char) : Option (Except ExpectedTokenError JsonValue) :=
  ParserState.parse (fuelBound input) (ParserState.new input)

/-- The error of a (fuelled) parse result, if it is one.  `JsonValue` has no
decidable equality (it is a nested inductive), so concrete runs are observed
through this projection and `isOkResult`. -/
def errOf {V : Type} : Option (Except ExpectedTokenError V) → Option ExpectedTokenError
  | some (.error e) => some e
  | _ => none

/-- Whether a (fuelled) parse result is a success. -/
def isOkResult {V : Type} : Option (Except ExpectedTokenError V) → Bool
  | some (.ok _) => true
  | _ => false

/-- The characters the `read_string` scan is still to examine: the current
character followed by the rest of the iterator. -/
def Lexer.currentChars (l : Lexer) : List Char :=
  match l.ch with
  | some c => c :: l.chars
  | none => []

/-- Validity of a `\u` escape, phrased on the characters that follow the
`u`: at least 4 characters remain, the first 4 are hex digits, and their
value is at most 0x10FFFF (the latter being automatic for 4 hex digits). -/
def uniOK (cs : List Char) : Prop :=
  4 ≤ cs.length ∧ (cs.take 4).all isHexDigit = true ∧ hexVal (cs.take 4) ≤ 0x10FFFF

instance (cs : List Char) : Decidable (uniOK cs) := by
  unfold uniOK
  infer_instance

/-- Spec-side scan (`Modelled from the spec`, section 4.1 string scanning):
the first defect in left-to-right scan order among the four in-string
defects, on the characters following the opening quote.  `none` when the
scan reaches a closing quote or the end of input without a defect. -/
def firstDefectSpec : List Char → Option IllegalString
  | [] => none
  | c :: rest =>
      if c = '"' then none
      else if c = '\\' then
        match rest with
        | [] => some .InvalidEscape
        | e :: rest2 =>
            if isEscapable e then firstDefectSpec rest2
            else if e = 'u' then
              if uniOK rest2 then firstDefectSpec (rest2.drop 4)
              else some .InvalidUnicode
            else some .InvalidEscape
      else if c = '\t' then some .UnescapedTab
      else if c = '\n' then some .UnescapedNewLine
      else firstDefectSpec rest
termination_by cs => cs.length
decreasing_by
  · simp; omega
  · simp [List.length_drop]; omega
  · simp

/-- Spec-side scan: whether the characters following the opening quote reach
a closing quote (escaped quotes and backslashes skipped as pairs). -/
def closedSpec : List Char → Bool
  | [] => false
  | c :: rest =>
      if c = '"' then true
      else if c = '\\' then
        match rest with
        | [] => false
        | e :: rest2 => if isEscapable e then closedSpec rest2 else closedSpec (e :: rest2)
      else closedSpec rest
termination_by cs => cs.length
decreasing_by
  · simp; omega
  · simp
  · simp

/-- Byte-level state invariant maintained by the lexer from `Lexer::new` on:
the byte counters delimit the current character and the remaining
characters. -/
def ByteInv (l : Lexer) : Prop :=
  match l.ch with
  | some c =>
      l.read_position = l.position + c.utf8Size ∧
      l.position + c.utf8Size + utf8Len l.chars = l.inputLen
  | none => l.chars = [] ∧ l.inputLen ≤ l.position ∧ l.read_position = l.position + 1

/-- Full lexer invariant: the byte invariant, plus a 1-based column whenever
a current character is present. -/
def LexInv (l : Lexer) : Prop := ByteInv l ∧ (l.ch.isSome → 1 ≤ l.column)

theorem utf8Len_cons (c : Char) (cs : List Char) :
    utf8Len (c :: cs) = c.utf8Size + utf8Len cs := by
  simp [utf8Len]

theorem Lexer.read_char_inv (l : Lexer) (h : ByteInv l) : LexInv l.read_char := by
  rcases l with ⟨il, p, rp, row, col, ch, cs⟩
  cases cs with
  | nil =>
      cases ch with
      | none =>
          simp only [ByteInv] at h
          simp only [Lexer.read_char, LexInv, ByteInv]
          simp_all
          omega
      | some c =>
          simp only [ByteInv] at h
          simp only [Lexer.read_char, LexInv, ByteInv]
          simp_all [utf8Len]
  | cons d rest =>
      cases ch with
      | none =>
          simp only [ByteInv] at h
          simp at h
      | some c =>
          simp only [ByteInv] at h
          simp only [Lexer.read_char, LexInv, ByteInv]
          simp_all [utf8Len_cons]
          omega

theorem LexInv.byte (l : Lexer) (h : LexInv l) : ByteInv l := h.1

theorem Lexer.new_inv (input : List Char) : LexInv (Lexer.new input) := by
  unfold Lexer.new Lexer.read_char
  cases input with
  | nil => simp [LexInv, ByteInv, utf8Len]
  | cons c rest => simp [LexInv, ByteInv, utf8Len_cons]

theorem Lexer.inv_some_lt (l : Lexer) (h : ByteInv l) (c : Char) (hc : l.ch = some c) :
    l.position < l.inputLen := by
  simp only [ByteInv, hc] at h
  have := Char.utf8Size_pos c
  omega

theorem Lexer.inv_none_ge (l : Lexer) (h : ByteInv l) (hc : l.ch = none) :
    l.inputLen ≤ l.position := by
  simp only [ByteInv, hc] at h
  exact h.2.1

theorem Lexer.skipWSLoop_inv (n : Nat) (l : Lexer) (h : LexInv l) :
    LexInv (Lexer.skipWSLoop n l) := by
  induction n generalizing l with
  | zero => exact h
  | succ n ih =>
      unfold Lexer.skipWSLoop
      split
      · exact ih _ (Lexer.read_char_inv _ h.1)
      · exact ih _ (Lexer.read_char_inv _ h.1)
      · exact ih _ (Lexer.read_char_inv _ h.1)
      · exact ih _ (Lexer.read_char_inv _ h.1)
      · exact h

theorem Lexer.skipWSLoop_measure_le (n : Nat) (l : Lexer) :
    (Lexer.skipWSLoop n l).measure ≤ l.measure := by
  induction n generalizing l with
  | zero => exact Nat.le_refl _
  | succ n ih =>
      unfold Lexer.skipWSLoop
      split
      · exact (ih _).trans (Lexer.read_char_measure_le _)
      · exact (ih _).trans (Lexer.read_char_measure_le _)
      · exact (ih _).trans (Lexer.read_char_measure_le _)
      · exact (ih _).trans (Lexer.read_char_measure_le _)
      · exact Nat.le_refl _

theorem Lexer.skip_whitespace_inv (l : Lexer) (h : LexInv l) :
    LexInv l.skip_whitespace := Lexer.skipWSLoop_inv _ _ h

theorem Lexer.skip_whitespace_measure_le (l : Lexer) :
    l.skip_whitespace.measure ≤ l.measure := Lexer.skipWSLoop_measure_le _ _

theorem Lexer.identLoop_inv (n : Nat) (l : Lexer) (h : LexInv l) :
    LexInv (Lexer.identLoop n l).2 := by
  induction n generalizing l with
  | zero => exact h
  | succ n ih =>
      unfold Lexer.identLoop
      split
      · split
        · exact ih _ (Lexer.read_char_inv _ h.1)
        · exact h
      · exact h

theorem Lexer.identLoop_measure_le (n : Nat) (l : Lexer) :
    (Lexer.identLoop n l).2.measure ≤ l.measure := by
  induction n generalizing l with
  | zero => exact Nat.le_refl _
  | succ n ih =>
      unfold Lexer.identLoop
      split
      · split
        · exact (ih _).trans (Lexer.read_char_measure_le _)
        · exact Nat.le_refl _
      · exact Nat.le_refl _

theorem Lexer.numLoop_inv (n : Nat) (l : Lexer) (h : LexInv l) :
    LexInv (Lexer.numLoop n l).2 := by
  induction n generalizing l with
  | zero => exact h
  | succ n ih =>
      unfold Lexer.numLoop
      split
      · split
        · exact ih _ (Lexer.read_char_inv _ h.1)
        · exact h
      · exact h

theorem Lexer.numLoop_measure_le (n : Nat) (l : Lexer) :
    (Lexer.numLoop n l).2.measure ≤ l.measure := by
  induction n generalizing l with
  | zero => exact Nat.le_refl _
  | succ n ih =>
      unfold Lexer.numLoop
      split
      · split
        · exact (ih _).trans (Lexer.read_char_measure_le _)
        · exact Nat.le_refl _
      · exact Nat.le_refl _

theorem Lexer.hexRun_inv (n : Nat) (l : Lexer) (h : LexInv l) :
    LexInv (Lexer.hexRun n l).2.2 := by
  induction n generalizing l with
  | zero => exact h
  | succ n ih =>
      unfold Lexer.hexRun
      split
      · split
        · exact ih _ (Lexer.read_char_inv _ h.1)
        · exact h
      · exact h

theorem Lexer.is_legal_unicode_inv (l : Lexer) (h : LexInv l) :
    LexInv (Lexer.is_legal_unicode l).2.2 := by
  unfold Lexer.is_legal_unicode
  have h4 := Lexer.hexRun_inv 4 l h
  rcases hr : Lexer.hexRun 4 l with ⟨d, cons, l'⟩
  rw [hr] at h4
  cases d <;> simpa using h4

theorem Lexer.is_legal_unicode_measure_le (l : Lexer) :
    (Lexer.is_legal_unicode l).2.2.measure ≤ l.measure := by
  unfold Lexer.is_legal_unicode
  have h4 := Lexer.hexRun_measure_le 4 l
  rcases hr : Lexer.hexRun 4 l with ⟨d, cons, l'⟩
  rw [hr] at h4
  cases d <;> simpa using h4

theorem Lexer.strLoop_inv (n : Nat) (l : Lexer) (reason : Option IllegalReason)
    (h : LexInv l) : LexInv (Lexer.strLoop n l reason).2.2.2 := by
  induction n, l, reason using Lexer.strLoop.induct with
  | case1 l reason => exact h
  | case2 n l reason hch => simp only [Lexer.strLoop, hch]; exact h
  | case3 n l reason hch =>
      simp only [Lexer.strLoop, hch]
      simpa using Lexer.read_char_inv _ h.1
  | case4 n l reason e hc hesc cs cl r lf hr hch hne ih =>
      have h1 := ih (Lexer.read_char_inv _ (Lexer.read_char_inv _ h.1).1)
      rw [hr] at h1
      simp only [Lexer.strLoop, hch]
      simpa [hc, hesc, hr] using h1
  | case5 n l r1 hx l3 hu4 cs cl r lf hr hch hne hcu hesc ih =>
      have hl3 := Lexer.is_legal_unicode_inv _
        (Lexer.read_char_inv _ (Lexer.read_char_inv _ h.1).1)
      rw [hu4] at hl3
      have h1 := ih hl3
      rw [hr] at h1
      simp only [Lexer.strLoop, hch]
      simpa [hcu, hesc, hu4, hr] using h1
  | case6 n l e hc hesc hcu cs cl r lf hr hch hne ih =>
      have h1 := ih (Lexer.read_char_inv _ h.1)
      rw [hr] at h1
      simp only [Lexer.strLoop, hch]
      simpa [hc, hesc, hcu, hr] using h1
  | case7 n l reason e hc hesc hre cs cl r lf hr hch hne ih =>
      have h1 := ih (Lexer.read_char_inv _ h.1)
      rw [hr] at h1
      simp only [Lexer.strLoop, hch]
      simpa [hc, hesc, hre, hr] using h1
  | case8 n l hc cs cl r lf hr hch hne ih =>
      have h1 := ih (Lexer.read_char_inv _ h.1)
      rw [hr] at h1
      simp only [Lexer.strLoop, hch]
      simpa [hc, hr] using h1
  | case9 n l reason hc hre cs cl r lf hr hch hne ih =>
      have h1 := ih (Lexer.read_char_inv _ h.1)
      rw [hr] at h1
      simp only [Lexer.strLoop, hch]
      simpa [hc, hre, hr] using h1
  | case10 n l reason ch hch hq hb cs cl r lf hr ih =>
      have h1 := ih (Lexer.read_char_inv _ h.1)
      rw [hr] at h1
      simp only [Lexer.strLoop, hch]
      simpa [hq, hb, hr] using h1

theorem Lexer.strLoop_measure_le (n : Nat) (l : Lexer) (reason : Option IllegalReason) :
    (Lexer.strLoop n l reason).2.2.2.measure ≤ l.measure := by
  induction n, l, reason using Lexer.strLoop.induct with
  | case1 l reason => exact Nat.le_refl _
  | case2 n l reason hch => simp only [Lexer.strLoop, hch]; exact Nat.le_refl _
  | case3 n l reason hch =>
      simp only [Lexer.strLoop, hch]
      simpa using Lexer.read_char_measure_le _
  | case4 n l reason e hc hesc cs cl r lf hr hch hne ih =>
      rw [hr] at ih
      simp only [Lexer.strLoop, hch]
      simpa [hc, hesc, hr] using
        (ih.trans (Lexer.read_char_measure_le _)).trans (Lexer.read_char_measure_le _)
  | case5 n l r1 hx l3 hu4 cs cl r lf hr hch hne hcu hesc ih =>
      have hm := Lexer.is_legal_unicode_measure_le (Lexer.read_char (Lexer.read_char l))
      rw [hu4] at hm
      rw [hr] at ih
      simp only [Lexer.strLoop, hch]
      simpa [hcu, hesc, hu4, hr] using
        ((ih.trans hm).trans (Lexer.read_char_measure_le _)).trans
          (Lexer.read_char_measure_le _)
  | case6 n l e hc hesc hcu cs cl r lf hr hch hne ih =>
      rw [hr] at ih
      simp only [Lexer.strLoop, hch]
      simpa [hc, hesc, hcu, hr] using ih.trans (Lexer.read_char_measure_le _)
  | case7 n l reason e hc hesc hre cs cl r lf hr hch hne ih =>
      rw [hr] at ih
      simp only [Lexer.strLoop, hch]
      simpa [hc, hesc, hre, hr] using ih.trans (Lexer.read_char_measure_le _)
  | case8 n l hc cs cl r lf hr hch hne ih =>
      rw [hr] at ih
      simp only [Lexer.strLoop, hch]
      simpa [hc, hr] using ih.trans (Lexer.read_char_measure_le _)
  | case9 n l reason hc hre cs cl r lf hr hch hne ih =>
      rw [hr] at ih
      simp only [Lexer.strLoop, hch]
      simpa [hc, hre, hr] using ih.trans (Lexer.read_char_measure_le _)
  | case10 n l reason ch hch hq hb cs cl r lf hr ih =>
      rw [hr] at ih
      simp only [Lexer.strLoop, hch]
      simpa [hq, hb, hr] using ih.trans (Lexer.read_char_measure_le _)

theorem Lexer.read_string_inv (l : Lexer) (h : LexInv l) :
    LexInv (Lexer.read_string l).2.2 := by
  unfold Lexer.read_string
  have hs := Lexer.strLoop_inv (l.read_char.measure) l.read_char none
    (Lexer.read_char_inv _ h.1)
  rcases hr : Lexer.strLoop l.read_char.measure l.read_char none with ⟨cs, cl, r, l'⟩
  rw [hr] at hs
  cases cl <;> simpa using hs

theorem Lexer.read_string_measure_le (l : Lexer) :
    (Lexer.read_string l).2.2.measure ≤ l.measure := by
  unfold Lexer.read_string
  have hs := (Lexer.strLoop_measure_le (l.read_char.measure) l.read_char none).trans
    (Lexer.read_char_measure_le l)
  rcases hr : Lexer.strLoop l.read_char.measure l.read_char none with ⟨cs, cl, r, l'⟩
  rw [hr] at hs
  cases cl <;> simpa using hs

theorem Lexer.tokenAfterWS_inv (l : Lexer) (h : LexInv l) :
    LexInv (Lexer.tokenAfterWS l).2 := by
  unfold Lexer.tokenAfterWS Lexer.singleChar
  split
  · exact Lexer.read_char_inv _ h.1
  · exact Lexer.read_char_inv _ h.1
  · exact Lexer.read_char_inv _ h.1
  · exact Lexer.read_char_inv _ h.1
  · exact Lexer.read_char_inv _ h.1
  · exact Lexer.read_char_inv _ h.1
  · have hs := Lexer.read_string_inv l h
    rcases hr : l.read_string with ⟨str, reason, l'⟩
    rw [hr] at hs
    cases reason <;> simpa using hs
  · have hs : LexInv (l.read_ident).2 := Lexer.identLoop_inv l.measure l h
    rcases hr : l.read_ident with ⟨ident, l'⟩
    rw [hr] at hs
    simpa [hr] using hs
  · have hs : LexInv (l.read_ident).2 := Lexer.identLoop_inv l.measure l h
    rcases hr : l.read_ident with ⟨ident, l'⟩
    rw [hr] at hs
    simpa [hr] using hs
  · have hs : LexInv (l.read_ident).2 := Lexer.identLoop_inv l.measure l h
    rcases hr : l.read_ident with ⟨ident, l'⟩
    rw [hr] at hs
    simpa [hr] using hs
  · split
    · have hs : LexInv (l.read_number).2 := Lexer.numLoop_inv l.measure l h
      rcases hr : l.read_number with ⟨num, l'⟩
      rw [hr] at hs
      simpa [hr] using hs
    · split
      · exact Lexer.read_char_inv _ h.1
      · exact Lexer.read_char_inv _ h.1
  · split
    · exact Lexer.read_char_inv _ h.1
    · exact Lexer.read_char_inv _ h.1

theorem Lexer.next_token_inv (l : Lexer) (h : LexInv l) :
    LexInv (Lexer.next_token l).2 :=
  Lexer.tokenAfterWS_inv _ (Lexer.skip_whitespace_inv l h)

theorem Lexer.tokenAfterWS_measure_le (l : Lexer) :
    (Lexer.tokenAfterWS l).2.measure ≤ l.measure := by
  unfold Lexer.tokenAfterWS Lexer.singleChar
  split
  · exact Lexer.read_char_measure_le _
  · exact Lexer.read_char_measure_le _
  · exact Lexer.read_char_measure_le _
  · exact Lexer.read_char_measure_le _
  · exact Lexer.read_char_measure_le _
  · exact Lexer.read_char_measure_le _
  · have hs := Lexer.read_string_measure_le l
    rcases hr : l.read_string with ⟨str, reason, l'⟩
    rw [hr] at hs
    cases reason <;> simpa using hs
  · have hs : (l.read_ident).2.measure ≤ l.measure := Lexer.identLoop_measure_le l.measure l
    rcases hr : l.read_ident with ⟨ident, l'⟩
    rw [hr] at hs
    simpa [hr] using hs
  · have hs : (l.read_ident).2.measure ≤ l.measure := Lexer.identLoop_measure_le l.measure l
    rcases hr : l.read_ident with ⟨ident, l'⟩
    rw [hr] at hs
    simpa [hr] using hs
  · have hs : (l.read_ident).2.measure ≤ l.measure := Lexer.identLoop_measure_le l.measure l
    rcases hr : l.read_ident with ⟨ident, l'⟩
    rw [hr] at hs
    simpa [hr] using hs
  · split
    · have hs : (l.read_number).2.measure ≤ l.measure := Lexer.numLoop_measure_le l.measure l
      rcases hr : l.read_number with ⟨num, l'⟩
      rw [hr] at hs
      simpa [hr] using hs
    · split
      · exact Lexer.read_char_measure_le _
      · exact Lexer.read_char_measure_le _
  · split
    · exact Lexer.read_char_measure_le _
    · exact Lexer.read_char_measure_le _

theorem Lexer.next_token_measure_le (l : Lexer) :
    (Lexer.next_token l).2.measure ≤ l.measure :=
  (Lexer.tokenAfterWS_measure_le _).trans (Lexer.skip_whitespace_measure_le l)

theorem Lexer.measure_pos_of_some (l : Lexer) (c : Char) (hch : l.ch = some c) :
    1 ≤ l.measure := by
  unfold Lexer.measure
  simp [hch]

theorem Lexer.identLoop_succ_measure_lt (n : Nat) (l : Lexer) (c : Char)
    (hch : l.ch = some c) (hc : c.isLower) :
    (Lexer.identLoop (n + 1) l).2.measure < l.measure := by
  have hlt := Lexer.read_char_measure_lt l (by simp [hch])
  have hle := Lexer.identLoop_measure_le n l.read_char
  rcases hr : Lexer.identLoop n l.read_char with ⟨cs, l'⟩
  rw [hr] at hle
  simp only [Lexer.identLoop, hch, hc, hr]
  simp only at hle
  simpa using lt_of_le_of_lt hle hlt

theorem Lexer.read_ident_measure_lt (l : Lexer) (c : Char)
    (hch : l.ch = some c) (hc : c.isLower) :
    (l.read_ident).2.measure < l.measure := by
  have hpos : l.measure = (l.measure - 1) + 1 := by
    have := Lexer.measure_pos_of_some l c hch
    omega
  have h2 := Lexer.identLoop_succ_measure_lt (l.measure - 1) l c hch hc
  rw [← hpos] at h2
  exact h2

theorem Lexer.numLoop_succ_measure_lt (n : Nat) (l : Lexer) (c : Char)
    (hch : l.ch = some c) (hc : isNumChar c) :
    (Lexer.numLoop (n + 1) l).2.measure < l.measure := by
  have hlt := Lexer.read_char_measure_lt l (by simp [hch])
  have hle := Lexer.numLoop_measure_le n l.read_char
  rcases hr : Lexer.numLoop n l.read_char with ⟨cs, l'⟩
  rw [hr] at hle
  simp only [Lexer.numLoop, hch, hc, hr]
  simp only at hle
  simpa using lt_of_le_of_lt hle hlt

theorem Lexer.read_number_measure_lt (l : Lexer) (c : Char)
    (hch : l.ch = some c) (hc : isNumChar c) :
    (l.read_number).2.measure < l.measure := by
  have hpos : l.measure = (l.measure - 1) + 1 := by
    have := Lexer.measure_pos_of_some l c hch
    omega
  have h2 := Lexer.numLoop_succ_measure_lt (l.measure - 1) l c hch hc
  rw [← hpos] at h2
  exact h2

theorem Lexer.read_string_measure_lt (l : Lexer) (c : Char) (hch : l.ch = some c) :
    (l.read_string).2.2.measure < l.measure := by
  have hlt := Lexer.read_char_measure_lt l (by simp [hch])
  have hle := Lexer.strLoop_measure_le l.read_char.measure l.read_char none
  unfold Lexer.read_string
  rcases hr : Lexer.strLoop l.read_char.measure l.read_char none with ⟨cs, cl, r, l'⟩
  rw [hr] at hle
  simp only at hle
  cases cl <;> simpa using lt_of_le_of_lt hle hlt

theorem Lexer.tokenAfterWS_measure_lt (l : Lexer) (h : LexInv l)
    (hk : (Lexer.tokenAfterWS l).1.kind ≠ .Eof) :
    (Lexer.tokenAfterWS l).2.measure < l.measure := by
  unfold Lexer.tokenAfterWS Lexer.singleChar
  split
  · rename_i hch
    exact Lexer.read_char_measure_lt l (by simp [hch])
  · rename_i hch
    exact Lexer.read_char_measure_lt l (by simp [hch])
  · rename_i hch
    exact Lexer.read_char_measure_lt l (by simp [hch])
  · rename_i hch
    exact Lexer.read_char_measure_lt l (by simp [hch])
  · rename_i hch
    exact Lexer.read_char_measure_lt l (by simp [hch])
  · rename_i hch
    exact Lexer.read_char_measure_lt l (by simp [hch])
  · rename_i hch
    have hs := Lexer.read_string_measure_lt l '"' hch
    rcases hr : l.read_string with ⟨str, reason, l'⟩
    rw [hr] at hs
    cases reason <;> simpa [hr] using hs
  · rename_i hch
    have hs := Lexer.read_ident_measure_lt l 't' hch (by decide)
    rcases hr : l.read_ident with ⟨ident, l'⟩
    rw [hr] at hs
    simpa [hr] using hs
  · rename_i hch
    have hs := Lexer.read_ident_measure_lt l 'f' hch (by decide)
    rcases hr : l.read_ident with ⟨ident, l'⟩
    rw [hr] at hs
    simpa [hr] using hs
  · rename_i hch
    have hs := Lexer.read_ident_measure_lt l 'n' hch (by decide)
    rcases hr : l.read_ident with ⟨ident, l'⟩
    rw [hr] at hs
    simpa [hr] using hs
  · rename_i c d1 d2 d3 d4 d5 d6 d7 d8 d9 d10 hch
    split
    · rename_i hnum
      have hs := Lexer.read_number_measure_lt l c hch
        (by rcases hnum with h1 | h1 <;> simp [isNumChar, h1])
      rcases hr : l.read_number with ⟨num, l'⟩
      rw [hr] at hs
      simpa [hr] using hs
    · split
      · rename_i hnum hpos
        have := Lexer.inv_some_lt l h.1 c hch
        omega
      · exact Lexer.read_char_measure_lt l (by simp [hch])
  · rename_i a hch
    have hge := Lexer.inv_none_ge l h.1 hch
    exfalso
    apply hk
    unfold Lexer.tokenAfterWS
    simp [hch, hge]

theorem Lexer.next_token_measure_lt (l : Lexer) (h : LexInv l)
    (hk : (Lexer.next_token l).1.kind ≠ .Eof) :
    (Lexer.next_token l).2.measure < l.measure := by
  calc (Lexer.tokenAfterWS l.skip_whitespace).2.measure
      < l.skip_whitespace.measure :=
        Lexer.tokenAfterWS_measure_lt _ (Lexer.skip_whitespace_inv l h) hk
    _ ≤ l.measure := Lexer.skip_whitespace_measure_le l

/-- Termination measure of a parser state: the lexer's remaining material
plus one for a buffered non-`Eof` lookahead token. -/
def pmeasure (s : ParserState) : Nat :=
  s.lexer.measure + (if s.peek_token.kind = .Eof then 0 else 1)

theorem ParserState.next_token_lexinv (s : ParserState) (h : LexInv s.lexer) :
    LexInv s.next_token.lexer := by
  unfold ParserState.next_token
  have hi := Lexer.next_token_inv s.lexer h
  rcases ht : s.lexer.next_token with ⟨t, l'⟩
  rw [ht] at hi
  simpa using hi

theorem ParserState.next_token_pmeasure_le (s : ParserState) (h : LexInv s.lexer) :
    pmeasure s.next_token ≤ pmeasure s := by
  unfold ParserState.next_token pmeasure
  have hle := Lexer.next_token_measure_le s.lexer
  by_cases hEof : (s.lexer.next_token).1.kind = .Eof
  · rcases ht : s.lexer.next_token with ⟨t, l'⟩
    rw [ht] at hle hEof
    simp only at hle hEof
    simp [hEof]
    omega
  · have hlt := Lexer.next_token_measure_lt s.lexer h hEof
    rcases ht : s.lexer.next_token with ⟨t, l'⟩
    rw [ht] at hlt hEof
    simp only at hlt hEof
    simp [hEof]
    split <;> omega

theorem ParserState.next_token_pmeasure_lt (s : ParserState) (h : LexInv s.lexer)
    (hp : s.peek_token.kind ≠ .Eof) :
    pmeasure s.next_token < pmeasure s := by
  unfold ParserState.next_token pmeasure
  have hle := Lexer.next_token_measure_le s.lexer
  by_cases hEof : (s.lexer.next_token).1.kind = .Eof
  · rcases ht : s.lexer.next_token with ⟨t, l'⟩
    rw [ht] at hle hEof
    simp only at hle hEof
    simp [hEof, hp]
    omega
  · have hlt := Lexer.next_token_measure_lt s.lexer h hEof
    rcases ht : s.lexer.next_token with ⟨t, l'⟩
    rw [ht] at hlt hEof
    simp only at hlt hEof
    simp [hEof, hp]
    omega

theorem ParserState.expect_peek_cases (s : ParserState) (k : TokenKind) :
    (s.peek_token.kind = k ∧ s.expect_peek k = .ok s.next_token) ∨
    (s.peek_token.kind ≠ k ∧ s.expect_peek k =
      .error (ExpectedTokenError.with_offset [k] s.peek_token.kind s.peek_token.origin
        s.lexer.row s.lexer.column)) := by
  unfold ParserState.expect_peek
  by_cases h : s.peek_token.kind = k
  · left
    simp [h]
  · right
    simp [h]

/-- Fuel adequacy and measure decrease for `parse_value` at fuel `n`. -/
def ValueSpec (n : Nat) : Prop :=
  ∀ s : ParserState, LexInv s.lexer → 4 * pmeasure s + 2 ≤ n →
    parse_value n s ≠ none ∧
    ∀ v s', parse_value n s = some (.ok (v, s')) →
      LexInv s'.lexer ∧ pmeasure s' < pmeasure s

/-- Fuel adequacy and measure decrease for `parse_property` at fuel `n`. -/
def PropertySpec (n : Nat) : Prop :=
  ∀ s : ParserState, LexInv s.lexer → 4 * pmeasure s + 3 ≤ n →
    parse_property n s ≠ none ∧
    ∀ p s', parse_property n s = some (.ok (p, s')) →
      LexInv s'.lexer ∧ pmeasure s' + 3 ≤ pmeasure s

/-- Fuel adequacy and measure decrease for `parse_object` at fuel `n`. -/
def ObjectSpec (n : Nat) : Prop :=
  ∀ s : ParserState, LexInv s.lexer → 4 * pmeasure s + 1 ≤ n →
    parse_object n s ≠ none ∧
    ∀ v s', parse_object n s = some (.ok (v, s')) →
      LexInv s'.lexer ∧ pmeasure s' < pmeasure s

/-- Fuel adequacy and measure decrease for `parse_array` at fuel `n`. -/
def ArraySpec (n : Nat) : Prop :=
  ∀ s : ParserState, LexInv s.lexer → 4 * pmeasure s + 1 ≤ n →
    parse_array n s ≠ none ∧
    ∀ v s', parse_array n s = some (.ok (v, s')) →
      LexInv s'.lexer ∧ pmeasure s' < pmeasure s

/-- Fuel adequacy and measure decrease for `object_loop` at fuel `n`. -/
def ObjectLoopSpec (n : Nat) : Prop :=
  ∀ (s : ParserState) (items : List (List Char × JsonValue)),
    LexInv s.lexer → 4 * pmeasure s + 4 ≤ n →
    object_loop n s items ≠ none ∧
    ∀ v s', object_loop n s items = some (.ok (v, s')) →
      LexInv s'.lexer ∧ pmeasure s' < pmeasure s

/-- Fuel adequacy and measure decrease for `array_loop` at fuel `n`. -/
def ArrayLoopSpec (n : Nat) : Prop :=
  ∀ (s : ParserState) (items : List JsonValue),
    LexInv s.lexer → 4 * pmeasure s + 4 ≤ n →
    array_loop n s items ≠ none ∧
    ∀ v s', array_loop n s items = some (.ok (v, s')) →
      LexInv s'.lexer ∧ pmeasure s' < pmeasure s

theorem parserSpecAll (n : Nat) :
    ValueSpec n ∧ PropertySpec n ∧ ObjectSpec n ∧ ObjectLoopSpec n ∧
      ArraySpec n ∧ ArrayLoopSpec n := by
  induction n with
  | zero =>
      unfold ValueSpec PropertySpec ObjectSpec ObjectLoopSpec ArraySpec ArrayLoopSpec
      refine ⟨?_, ?_, ?_, ?_, ?_, ?_⟩ <;> (intros; omega)
  | succ n ih =>
      obtain ⟨ihV, ihP, ihO, ihOL, ihA, ihAL⟩ := ih
      have hV : ValueSpec (n + 1) := by
        intro s hInv hb
        rcases hpk : s.peek_token.kind with _ | _ | _ | _ | _ | _ | _ | _ | _ | _ | _ | reason | _
        · refine ⟨by simp [parse_value, hpk], fun v s' hok => ?_⟩
          simp only [parse_value, hpk] at hok
          simp at hok
          obtain ⟨hv, hs⟩ := hok
          subst hs
          exact ⟨ParserState.next_token_lexinv s hInv,
            ParserState.next_token_pmeasure_lt s hInv (by simp [hpk])⟩
        · by_cases hf : f64_parse_ok s.peek_token.origin
          · refine ⟨by simp [parse_value, hpk, ParserState.parse_number, hf],
              fun v s' hok => ?_⟩
            simp only [parse_value, hpk, ParserState.parse_number, hf, if_true] at hok
            simp at hok
            obtain ⟨hv, hs⟩ := hok
            subst hs
            exact ⟨ParserState.next_token_lexinv s hInv,
              ParserState.next_token_pmeasure_lt s hInv (by simp [hpk])⟩
          · refine ⟨by simp [parse_value, hpk, ParserState.parse_number, hf],
              fun v s' hok => ?_⟩
            simp [parse_value, hpk, ParserState.parse_number, hf] at hok
        · refine ⟨by simp [parse_value, hpk], fun v s' hok => ?_⟩
          simp only [parse_value, hpk] at hok
          simp at hok
          obtain ⟨hv, hs⟩ := hok
          subst hs
          exact ⟨ParserState.next_token_lexinv s hInv,
            ParserState.next_token_pmeasure_lt s hInv (by simp [hpk])⟩
        · refine ⟨by simp [parse_value, hpk], fun v s' hok => ?_⟩
          simp only [parse_value, hpk] at hok
          simp at hok
          obtain ⟨hv, hs⟩ := hok
          subst hs
          exact ⟨ParserState.next_token_lexinv s hInv,
            ParserState.next_token_pmeasure_lt s hInv (by simp [hpk])⟩
        · refine ⟨by simp [parse_value, hpk], fun v s' hok => ?_⟩
          simp only [parse_value, hpk] at hok
          simp at hok
          obtain ⟨hv, hs⟩ := hok
          subst hs
          exact ⟨ParserState.next_token_lexinv s hInv,
            ParserState.next_token_pmeasure_lt s hInv (by simp [hpk])⟩
        · have hO := ihO s hInv (by omega)
          rcases ho : parse_object n s with _ | r
          · exact absurd ho hO.1
          · rcases r with e | ⟨v1, s1⟩
            · refine ⟨by simp [parse_value, hpk, ho], fun v s' hok => ?_⟩
              simp [parse_value, hpk, ho] at hok
            · obtain ⟨hI1, hμ1⟩ := hO.2 v1 s1 ho
              refine ⟨by simp [parse_value, hpk, ho], fun v s' hok => ?_⟩
              simp only [parse_value, hpk, ho] at hok
              simp at hok
              obtain ⟨hv, hs⟩ := hok
              subst hs
              exact ⟨ParserState.next_token_lexinv _ hI1,
                lt_of_le_of_lt (ParserState.next_token_pmeasure_le _ hI1) hμ1⟩
        · refine ⟨by simp [parse_value, hpk], fun v s' hok => ?_⟩
          simp [parse_value, hpk] at hok
        · have hA := ihA s hInv (by omega)
          rcases ho : parse_array n s with _ | r
          · exact absurd ho hA.1
          · rcases r with e | ⟨v1, s1⟩
            · refine ⟨by simp [parse_value, hpk, ho], fun v s' hok => ?_⟩
              simp [parse_value, hpk, ho] at hok
            · obtain ⟨hI1, hμ1⟩ := hA.2 v1 s1 ho
              refine ⟨by simp [parse_value, hpk, ho], fun v s' hok => ?_⟩
              simp only [parse_value, hpk, ho] at hok
              simp at hok
              obtain ⟨hv, hs⟩ := hok
              subst hs
              exact ⟨ParserState.next_token_lexinv _ hI1,
                lt_of_le_of_lt (ParserState.next_token_pmeasure_le _ hI1) hμ1⟩
        · refine ⟨by simp [parse_value, hpk], fun v s' hok => ?_⟩
          simp [parse_value, hpk] at hok
        · refine ⟨by simp [parse_value, hpk], fun v s' hok => ?_⟩
          simp [parse_value, hpk] at hok
        · refine ⟨by simp [parse_value, hpk], fun v s' hok => ?_⟩
          simp [parse_value, hpk] at hok
        · refine ⟨by simp [parse_value, hpk], fun v s' hok => ?_⟩
          simp [parse_value, hpk] at hok
        · refine ⟨by simp [parse_value, hpk], fun v s' hok => ?_⟩
          simp [parse_value, hpk] at hok
      have hP : PropertySpec (n + 1) := by
        intro s hInv hb
        rcases ParserState.expect_peek_cases s .String with ⟨hk1, he1⟩ | ⟨hk1, he1⟩
        · have hI1 := ParserState.next_token_lexinv s hInv
          have hμ1 := ParserState.next_token_pmeasure_lt s hInv (by simp [hk1])
          rcases ParserState.expect_peek_cases s.next_token .Colon with ⟨hk2, he2⟩ | ⟨hk2, he2⟩
          · have hI2 := ParserState.next_token_lexinv _ hI1
            have hμ2 := ParserState.next_token_pmeasure_lt _ hI1 (by simp [hk2])
            have hVn := ihV s.next_token.next_token hI2 (by omega)
            rcases hv : parse_value n s.next_token.next_token with _ | r
            · exact absurd hv hVn.1
            · rcases r with e | ⟨v1, s3⟩
              · refine ⟨by simp [parse_property, he1, he2, hv], fun p s' hok => ?_⟩
                simp [parse_property, he1, he2, hv] at hok
              · obtain ⟨hI3, hμ3⟩ := hVn.2 v1 s3 hv
                refine ⟨by simp [parse_property, he1, he2, hv], fun p s' hok => ?_⟩
                simp only [parse_property, he1, he2, hv] at hok
                simp at hok
                obtain ⟨hp, hs⟩ := hok
                subst hs
                exact ⟨hI3, by omega⟩
          · refine ⟨by simp [parse_property, he1, he2], fun p s' hok => ?_⟩
            simp [parse_property, he1, he2] at hok
        · refine ⟨by simp [parse_property, he1], fun p s' hok => ?_⟩
          simp [parse_property, he1] at hok
      have hOL : ObjectLoopSpec (n + 1) := by
        intro s items hInv hb
        have hPn := ihP s hInv (by omega)
        rcases hp : parse_property n s with _ | r
        · exact absurd hp hPn.1
        · rcases r with e | ⟨p1, s3⟩
          · refine ⟨by simp [object_loop, hp], fun v s' hok => ?_⟩
            simp [object_loop, hp] at hok
          · obtain ⟨hI3, hμ3⟩ := hPn.2 p1 s3 hp
            rcases hpk3 : s3.peek_token.kind with _ | _ | _ | _ | _ | _ | _ | _ | _ | _ | _ | reason | _
            case Comma =>
              have hI4 := ParserState.next_token_lexinv s3 hI3
              have hμ4 := ParserState.next_token_pmeasure_lt s3 hI3 (by simp [hpk3])
              have hLn := ihOL s3.next_token (items ++ [p1]) hI4 (by omega)
              rcases hl : object_loop n s3.next_token (items ++ [p1]) with _ | r2
              · exact absurd hl hLn.1
              · rcases r2 with e | ⟨v2, s4⟩
                · refine ⟨by simp [object_loop, hp, hpk3, hl], fun v s' hok => ?_⟩
                  simp [object_loop, hp, hpk3, hl] at hok
                · obtain ⟨hI5, hμ5⟩ := hLn.2 v2 s4 hl
                  refine ⟨by simp [object_loop, hp, hpk3, hl], fun v s' hok => ?_⟩
                  simp only [object_loop, hp, hpk3, hl] at hok
                  simp at hok
                  obtain ⟨hv, hs⟩ := hok
                  subst hs
                  exact ⟨hI5, by omega⟩
            case RBrace =>
              refine ⟨by simp [object_loop, hp, hpk3], fun v s' hok => ?_⟩
              simp only [object_loop, hp, hpk3] at hok
              simp at hok
              obtain ⟨hv, hs⟩ := hok
              subst hs
              exact ⟨hI3, by omega⟩
            all_goals
              refine ⟨by simp [object_loop, hp, hpk3], fun v s' hok => ?_⟩
            all_goals
              simp [object_loop, hp, hpk3] at hok
      have hAL : ArrayLoopSpec (n + 1) := by
        intro s items hInv hb
        have hVn := ihV s hInv (by omega)
        rcases hv : parse_value n s with _ | r
        · exact absurd hv hVn.1
        · rcases r with e | ⟨v1, s3⟩
          · refine ⟨by simp [array_loop, hv], fun v s' hok => ?_⟩
            simp [array_loop, hv] at hok
          · obtain ⟨hI3, hμ3⟩ := hVn.2 v1 s3 hv
            rcases hpk3 : s3.peek_token.kind with _ | _ | _ | _ | _ | _ | _ | _ | _ | _ | _ | reason | _
            case Comma =>
              have hI4 := ParserState.next_token_lexinv s3 hI3
              have hμ4 := ParserState.next_token_pmeasure_lt s3 hI3 (by simp [hpk3])
              have hLn := ihAL s3.next_token (items ++ [v1]) hI4 (by omega)
              rcases hl : array_loop n s3.next_token (items ++ [v1]) with _ | r2
              · exact absurd hl hLn.1
              · rcases r2 with e | ⟨v2, s4⟩
                · refine ⟨by simp [array_loop, hv, hpk3, hl], fun v s' hok => ?_⟩
                  simp [array_loop, hv, hpk3, hl] at hok
                · obtain ⟨hI5, hμ5⟩ := hLn.2 v2 s4 hl
                  refine ⟨by simp [array_loop, hv, hpk3, hl], fun v s' hok => ?_⟩
                  simp only [array_loop, hv, hpk3, hl] at hok
                  simp at hok
                  obtain ⟨hv2, hs⟩ := hok
                  subst hs
                  exact ⟨hI5, by omega⟩
            case RBracket =>
              refine ⟨by simp [array_loop, hv, hpk3], fun v s' hok => ?_⟩
              simp only [array_loop, hv, hpk3] at hok
              simp at hok
              obtain ⟨hv2, hs⟩ := hok
              subst hs
              exact ⟨hI3, by omega⟩
            all_goals
              refine ⟨by simp [array_loop, hv, hpk3], fun v s' hok => ?_⟩
            all_goals
              simp [array_loop, hv, hpk3] at hok
      have hO : ObjectSpec (n + 1) := by
        intro s hInv hb
        rcases ParserState.expect_peek_cases s .LBrace with ⟨hk1, he1⟩ | ⟨hk1, he1⟩
        · have hI1 := ParserState.next_token_lexinv s hInv
          have hμ1 := ParserState.next_token_pmeasure_lt s hInv (by simp [hk1])
          by_cases hrb : s.next_token.peek_token.kind = .RBrace
          · refine ⟨by simp [parse_object, he1, hrb], fun v s' hok => ?_⟩
            simp only [parse_object, he1, hrb, if_true] at hok
            simp at hok
            obtain ⟨hv, hs⟩ := hok
            subst hs
            exact ⟨hI1, hμ1⟩
          · have hLn := ihOL s.next_token [] hI1 (by omega)
            rcases hl : object_loop n s.next_token [] with _ | r
            · exact absurd hl hLn.1
            · rcases r with e | ⟨v1, s1⟩
              · refine ⟨by simp [parse_object, he1, hrb, hl], fun v s' hok => ?_⟩
                simp [parse_object, he1, hrb, hl] at hok
              · obtain ⟨hI2, hμ2⟩ := hLn.2 v1 s1 hl
                refine ⟨by simp [parse_object, he1, hrb, hl], fun v s' hok => ?_⟩
                simp only [parse_object, he1, hrb, hl] at hok
                simp at hok
                obtain ⟨hv, hs⟩ := hok
                subst hs
                exact ⟨hI2, by omega⟩
        · refine ⟨by simp [parse_object, he1], fun v s' hok => ?_⟩
          simp [parse_object, he1] at hok
      have hA : ArraySpec (n + 1) := by
        intro s hInv hb
        rcases ParserState.expect_peek_cases s .LBracket with ⟨hk1, he1⟩ | ⟨hk1, he1⟩
        · have hI1 := ParserState.next_token_lexinv s hInv
          have hμ1 := ParserState.next_token_pmeasure_lt s hInv (by simp [hk1])
          by_cases hrb : s.next_token.peek_token.kind = .RBracket
          · refine ⟨by simp [parse_array, he1, hrb], fun v s' hok => ?_⟩
            simp only [parse_array, he1, hrb, if_true] at hok
            simp at hok
            obtain ⟨hv, hs⟩ := hok
            subst hs
            exact ⟨hI1, hμ1⟩
          · have hLn := ihAL s.next_token [] hI1 (by omega)
            rcases hl : array_loop n s.next_token [] with _ | r
            · exact absurd hl hLn.1
            · rcases r with e | ⟨v1, s1⟩
              · refine ⟨by simp [parse_array, he1, hrb, hl], fun v s' hok => ?_⟩
                simp [parse_array, he1, hrb, hl] at hok
              · obtain ⟨hI2, hμ2⟩ := hLn.2 v1 s1 hl
                refine ⟨by simp [parse_array, he1, hrb, hl], fun v s' hok => ?_⟩
                simp only [parse_array, he1, hrb, hl] at hok
                simp at hok
                obtain ⟨hv, hs⟩ := hok
                subst hs
                exact ⟨hI2, by omega⟩
        · refine ⟨by simp [parse_array, he1], fun v s' hok => ?_⟩
          simp [parse_array, he1] at hok
      exact ⟨hV, hP, hO, hOL, hA, hAL⟩

theorem ParserState.new_lexinv (input : List Char) :
    LexInv (ParserState.new input).lexer :=
  ParserState.next_token_lexinv
    ⟨Lexer.new input, Token.default, Token.default⟩ (Lexer.new_inv input)

theorem pmeasure_new_le (input : List Char) :
    pmeasure (ParserState.new input) ≤ 2 * input.length + 1 := by
  have h1 : (Lexer.new input).measure ≤ 2 * input.length := by
    have := Lexer.read_char_measure_le
      ⟨utf8Len input, 0, 0, 1, 0, none, input⟩
    simpa [Lexer.new, Lexer.measure] using this
  have h2 := Lexer.next_token_measure_le (Lexer.new input)
  unfold ParserState.new ParserState.next_token pmeasure
  rcases ht : (Lexer.new input).next_token with ⟨t, l'⟩
  rw [ht] at h2
  simp only at h2
  simp only
  split <;> omega

theorem parseInput_ne_none (input : List Char) : parseInput input ≠ none := by
  unfold parseInput ParserState.parse
  have hInv := ParserState.new_lexinv input
  have hμ := pmeasure_new_le input
  have hfb : 4 * pmeasure (ParserState.new input) + 1 ≤ fuelBound input := by
    unfold fuelBound
    omega
  rcases hpk : (ParserState.new input).peek_token.kind with
    _ | _ | _ | _ | _ | _ | _ | _ | _ | _ | _ | reason | _
  case LBrace =>
    simp only [hpk]
    unfold parse_root_object
    have hO := (parserSpecAll (fuelBound input)).2.2.1 (ParserState.new input) hInv hfb
    rcases ho : parse_object (fuelBound input) (ParserState.new input) with _ | r
    · exact absurd ho hO.1
    · rcases r with e | ⟨v1, s1⟩
      · simp [ho]
      · simp only [ho]
        split <;> simp
  case LBracket =>
    simp only [hpk]
    unfold parse_root_array
    have hA := (parserSpecAll (fuelBound input)).2.2.2.2.1 (ParserState.new input) hInv hfb
    rcases ho : parse_array (fuelBound input) (ParserState.new input) with _ | r
    · exact absurd ho hA.1
    · rcases r with e | ⟨v1, s1⟩
      · simp [ho]
      · simp only [ho]
        split <;> simp
  all_goals simp [hpk]

theorem Lexer.currentChars_read_char (l : Lexer) :
    Lexer.currentChars l.read_char = l.chars := by
  unfold Lexer.currentChars Lexer.read_char
  cases hc : l.chars <;> simp

theorem Lexer.read_char_ch_some (l : Lexer) (e : Char) (h : l.read_char.ch = some e) :
    l.chars = e :: l.read_char.chars := by
  unfold Lexer.read_char at *
  cases hc : l.chars <;> simp_all

theorem Lexer.read_char_ch_none (l : Lexer) (h : l.read_char.ch = none) :
    l.chars = [] := by
  unfold Lexer.read_char at *
  cases hc : l.chars <;> simp_all

theorem Lexer.measure_le_of_read_char_lt (l : Lexer) (n : Nat) (c : Char)
    (hch : l.ch = some c) (hb : l.measure ≤ n + 1) : l.read_char.measure ≤ n := by
  have := Lexer.read_char_measure_lt l (by simp [hch])
  omega

theorem Lexer.skipWSLoop_eq_self (n : Nat) (l : Lexer) (c : Char) (hch : l.ch = some c)
    (h1 : c ≠ ' ') (h2 : c ≠ '\t') (h3 : c ≠ '\r') (h4 : c ≠ '\n') :
    Lexer.skipWSLoop n l = l := by
  cases n with
  | zero => rfl
  | succ n =>
      unfold Lexer.skipWSLoop
      split
      · rename_i heq
        rw [hch] at heq
        injection heq with h
        exact absurd h h1
      · rename_i heq
        rw [hch] at heq
        injection heq with h
        exact absurd h h2
      · rename_i heq
        rw [hch] at heq
        injection heq with h
        exact absurd h h3
      · rename_i heq
        rw [hch] at heq
        injection heq with h
        exact absurd h h4
      · rfl

theorem Lexer.skip_whitespace_eq_self (l : Lexer) (c : Char) (hch : l.ch = some c)
    (h1 : c ≠ ' ') (h2 : c ≠ '\t') (h3 : c ≠ '\r') (h4 : c ≠ '\n') :
    l.skip_whitespace = l :=
  Lexer.skipWSLoop_eq_self _ l c hch h1 h2 h3 h4

theorem Lexer.numLoop_spec (n : Nat) (l : Lexer) (hb : l.measure ≤ n) :
    (Lexer.numLoop n l).1 = (Lexer.currentChars l).takeWhile isNumChar := by
  induction n generalizing l with
  | zero =>
      have := Lexer.measure_zero_ch l (by omega)
      simp [Lexer.numLoop, Lexer.currentChars, this]
  | succ n ih =>
      rcases hch : l.ch with _ | c
      · simp [Lexer.numLoop, Lexer.currentChars, hch]
      · by_cases hc : isNumChar c
        · have hle := Lexer.measure_le_of_read_char_lt l n c hch hb
          have := ih l.read_char hle
          rw [Lexer.currentChars_read_char] at this
          unfold Lexer.numLoop
          rcases hr : Lexer.numLoop n l.read_char with ⟨cs, l'⟩
          rw [hr] at this
          simp only at this
          simp [hch, hc, Lexer.currentChars, this]
        · simp [Lexer.numLoop, hch, hc, Lexer.currentChars]

theorem Lexer.read_number_spec (l : Lexer) :
    (l.read_number).1 = (Lexer.currentChars l).takeWhile isNumChar :=
  Lexer.numLoop_spec l.measure l (Nat.le_refl _)

theorem Lexer.next_token_number (l : Lexer) (c : Char) (hch : l.ch = some c)
    (hc : c = '-' ∨ c.isDigit = true) :
    Lexer.next_token l =
      (⟨classifyNumber ((Lexer.currentChars l).takeWhile isNumChar),
        (Lexer.currentChars l).takeWhile isNumChar, l.column⟩, (l.read_number).2) := by
  have hnw : c ≠ ' ' ∧ c ≠ '\t' ∧ c ≠ '\r' ∧ c ≠ '\n' := by
    rcases hc with h | h
    · subst h
      refine ⟨by decide, by decide, by decide, by decide⟩
    · refine ⟨?_, ?_, ?_, ?_⟩ <;>
        (intro hcon; rw [hcon] at h; exact absurd h (by decide))
  have hws := Lexer.skip_whitespace_eq_self l c hch hnw.1 hnw.2.1 hnw.2.2.1 hnw.2.2.2
  have hrs := Lexer.read_number_spec l
  unfold Lexer.next_token
  rw [hws]
  unfold Lexer.tokenAfterWS
  split
  · rename_i heq
    rw [hch] at heq
    injection heq with h
    subst h
    rcases hc with h1 | h1 <;> exact absurd h1 (by decide)
  · rename_i heq
    rw [hch] at heq
    injection heq with h
    subst h
    rcases hc with h1 | h1 <;> exact absurd h1 (by decide)
  · rename_i heq
    rw [hch] at heq
    injection heq with h
    subst h
    rcases hc with h1 | h1 <;> exact absurd h1 (by decide)
  · rename_i heq
    rw [hch] at heq
    injection heq with h
    subst h
    rcases hc with h1 | h1 <;> exact absurd h1 (by decide)
  · rename_i heq
    rw [hch] at heq
    injection heq with h
    subst h
    rcases hc with h1 | h1 <;> exact absurd h1 (by decide)
  · rename_i heq
    rw [hch] at heq
    injection heq with h
    subst h
    rcases hc with h1 | h1 <;> exact absurd h1 (by decide)
  · rename_i heq
    rw [hch] at heq
    injection heq with h
    subst h
    rcases hc with h1 | h1 <;> exact absurd h1 (by decide)
  · rename_i heq
    rw [hch] at heq
    injection heq with h
    subst h
    rcases hc with h1 | h1 <;> exact absurd h1 (by decide)
  · rename_i heq
    rw [hch] at heq
    injection heq with h
    subst h
    rcases hc with h1 | h1 <;> exact absurd h1 (by decide)
  · rename_i heq
    rw [hch] at heq
    injection heq with h
    subst h
    rcases hc with h1 | h1 <;> exact absurd h1 (by decide)
  · rename_i c2 d1 d2 d3 d4 d5 d6 d7 d8 d9 d10 hch2
    rw [hch] at hch2
    injection hch2 with h
    subst h
    rw [if_pos hc]
    rcases hr : l.read_number with ⟨num, l'⟩
    rw [hr] at hrs
    simp only at hrs
    simp [hrs]
  · rename_i a hch2
    rw [hch2] at hch
    simp at hch

theorem Lexer.hexRun_cases (n : Nat) (l : Lexer) :
    ((Lexer.hexRun n l).1 = some ((Lexer.currentChars l).take n) ∧
      n ≤ (Lexer.currentChars l).length ∧
      ((Lexer.currentChars l).take n).all isHexDigit = true ∧
      Lexer.currentChars (Lexer.hexRun n l).2.2 = (Lexer.currentChars l).drop n) ∨
    ((Lexer.hexRun n l).1 = none ∧
      ¬(n ≤ (Lexer.currentChars l).length ∧
        ((Lexer.currentChars l).take n).all isHexDigit = true) ∧
      ∃ k, ((Lexer.currentChars l).take k).all isHexDigit = true ∧
        Lexer.currentChars (Lexer.hexRun n l).2.2 = (Lexer.currentChars l).drop k) := by
  induction n generalizing l with
  | zero =>
      left
      simp [Lexer.hexRun]
  | succ n ih =>
      rcases hch : l.ch with _ | c
      · right
        refine ⟨by simp [Lexer.hexRun, hch], by simp [Lexer.currentChars, hch], 0, ?_, ?_⟩
        · simp
        · simp [Lexer.hexRun, hch]
      · by_cases hx : isHexDigit c
        · have hcc : Lexer.currentChars l = c :: l.chars := by
            simp [Lexer.currentChars, hch]
          have hrc := Lexer.currentChars_read_char l
          rcases ih l.read_char with ⟨h1, h2, h3, h4⟩ | ⟨h1, h2, k, hk1, hk2⟩
          · left
            rw [hrc] at h1 h2 h3 h4
            unfold Lexer.hexRun
            rcases hr : Lexer.hexRun n l.read_char with ⟨d, cons, l2⟩
            rw [hr] at h1 h4
            simp only at h1 h4
            subst h1
            simp [hch, hx, hcc, h2, h3, h4]
          · right
            rw [hrc] at h2 hk1 hk2
            unfold Lexer.hexRun
            rcases hr : Lexer.hexRun n l.read_char with ⟨d, cons, l2⟩
            rw [hr] at h1 hk2
            simp only at h1 hk2
            subst h1
            refine ⟨by simp [hch, hx], ?_, k + 1, ?_, ?_⟩
            · rw [hcc]
              intro hcon
              obtain ⟨ha, hb⟩ := hcon
              apply h2
              constructor
              · simpa using ha
              · simpa [List.take_succ_cons, List.all_cons, hx] using hb
            · rw [hcc]
              simpa [List.take_succ_cons, List.all_cons, hx] using hk1
            · rw [hcc]
              simpa [hch, hx] using hk2
        · right
          refine ⟨by simp [Lexer.hexRun, hch, hx], ?_, 0, by simp, by simp [Lexer.hexRun, hch, hx]⟩
          intro hcon
          have := hcon.2
          simp [Lexer.currentChars, hch, hx] at this

theorem Lexer.is_legal_unicode_cases (l : Lexer) :
    (uniOK (Lexer.currentChars l) ∧ (Lexer.is_legal_unicode l).1 = none ∧
      Lexer.currentChars (Lexer.is_legal_unicode l).2.2 = (Lexer.currentChars l).drop 4) ∨
    (¬uniOK (Lexer.currentChars l) ∧
      (Lexer.is_legal_unicode l).1 = some (.String .InvalidUnicode) ∧
      ∃ k, ((Lexer.currentChars l).take k).all isHexDigit = true ∧
        Lexer.currentChars (Lexer.is_legal_unicode l).2.2 = (Lexer.currentChars l).drop k) := by
  rcases Lexer.hexRun_cases 4 l with ⟨h1, h2, h3, h4⟩ | ⟨h1, h2, k, hk1, hk2⟩
  · by_cases hv : hexVal ((Lexer.currentChars l).take 4) ≤ 0x10FFFF
    · left
      refine ⟨⟨h2, h3, hv⟩, ?_, ?_⟩ <;>
        (unfold Lexer.is_legal_unicode
         rcases hr : Lexer.hexRun 4 l with ⟨d, cons, l2⟩
         rw [hr] at h1 h4
         simp only at h1 h4
         subst h1
         simp [hv, h4])
    · right
      refine ⟨fun hcon => hv hcon.2.2, ?_, 4, h3, ?_⟩ <;>
        (unfold Lexer.is_legal_unicode
         rcases hr : Lexer.hexRun 4 l with ⟨d, cons, l2⟩
         rw [hr] at h1 h4
         simp only at h1 h4
         subst h1
         simp [hv, h4])
  · right
    refine ⟨fun hcon => h2 ⟨hcon.1, hcon.2.1⟩, ?_, k, hk1, ?_⟩ <;>
      (unfold Lexer.is_legal_unicode
       rcases hr : Lexer.hexRun 4 l with ⟨d, cons, l2⟩
       rw [hr] at h1 hk2
       simp only at h1 hk2
       subst h1
       simp [hk2])

theorem Lexer.is_legal_unicode_none_iff (l : Lexer) :
    (Lexer.is_legal_unicode l).1 = none ↔ uniOK (Lexer.currentChars l) := by
  rcases Lexer.is_legal_unicode_cases l with ⟨h1, h2, h3⟩ | ⟨h1, h2⟩
  · simp [h1, h2]
  · simp [h1, h2]

theorem hex_plain (c : Char) (h : isHexDigit c = true) :
    c ≠ '"' ∧ c ≠ '\\' ∧ c ≠ '\t' ∧ c ≠ '\n' := by
  refine ⟨?_, ?_, ?_, ?_⟩ <;> (intro hcon; subst hcon; exact absurd h (by decide))

theorem closedSpec_append_plain (cs t : List Char)
    (h : ∀ c ∈ cs, c ≠ '"' ∧ c ≠ '\\') : closedSpec (cs ++ t) = closedSpec t := by
  induction cs with
  | nil => simp
  | cons c cs ih =>
      have hc := h c (by simp)
      rw [List.cons_append]
      rw [closedSpec.eq_def]
      simp only [hc.1, hc.2, if_false]
      exact ih fun d hd => h d (by simp [hd])

theorem firstDefectSpec_append_plain (cs t : List Char)
    (h : ∀ c ∈ cs, c ≠ '"' ∧ c ≠ '\\' ∧ c ≠ '\t' ∧ c ≠ '\n') :
    firstDefectSpec (cs ++ t) = firstDefectSpec t := by
  induction cs with
  | nil => simp
  | cons c cs ih =>
      have hc := h c (by simp)
      rw [List.cons_append]
      rw [firstDefectSpec.eq_def]
      simp only [hc.1, hc.2.1, hc.2.2.1, hc.2.2.2, if_false]
      exact ih fun d hd => h d (by simp [hd])

theorem updateStrReason_some (ch : Char) (r : IllegalReason) :
    updateStrReason ch (some r) = some r := by
  simp [updateStrReason]

theorem Lexer.strLoop_reason_some (n : Nat) (l : Lexer) (r : IllegalReason) :
    (Lexer.strLoop n l (some r)).2.2.1 = some r := by
  induction n generalizing l with
  | zero => simp [Lexer.strLoop]
  | succ n ih =>
      rcases hch : l.ch with _ | ch
      · simp [Lexer.strLoop, hch]
      · by_cases hq : ch = '"'
        · simp [Lexer.strLoop, hch, hq]
        · by_cases hbs : ch = '\\'
          · rcases hch1 : l.read_char.ch with _ | e
            · have h1 := ih l.read_char
              rcases hr : Lexer.strLoop n l.read_char (some r) with ⟨cs, cl, rr, lf⟩
              rw [hr] at h1
              simp only at h1
              simp [Lexer.strLoop, hch, hq, hbs, hch1, hr, h1]
            · by_cases hesc : isEscapable e
              · have h1 := ih l.read_char.read_char
                rcases hr : Lexer.strLoop n l.read_char.read_char (some r) with ⟨cs, cl, rr, lf⟩
                rw [hr] at h1
                simp only at h1
                simp [Lexer.strLoop, hch, hq, hbs, hch1, hesc, hr, h1]
              · have h1 := ih l.read_char
                rcases hr : Lexer.strLoop n l.read_char (some r) with ⟨cs, cl, rr, lf⟩
                rw [hr] at h1
                simp only at h1
                simp [Lexer.strLoop, hch, hq, hbs, hch1, hesc, hr, h1]
          · have h1 := ih l.read_char
            rcases hr : Lexer.strLoop n l.read_char (updateStrReason ch (some r)) with ⟨cs, cl, rr, lf⟩
            rw [updateStrReason_some] at hr
            rw [hr] at h1
            simp only at h1
            simp [Lexer.strLoop, hch, hq, hbs, updateStrReason_some, hr, h1]

theorem Lexer.strLoop_closed (n : Nat) (l : Lexer) (reason : Option IllegalReason)
    (hb : l.measure ≤ n) :
    (Lexer.strLoop n l reason).2.1 = closedSpec (Lexer.currentChars l) := by
  induction n generalizing l reason with
  | zero =>
      have hch := Lexer.measure_zero_ch l (by omega)
      simp [Lexer.strLoop, Lexer.currentChars, hch, closedSpec]
  | succ n ih =>
      rcases hch : l.ch with _ | ch
      · simp [Lexer.strLoop, Lexer.currentChars, hch, closedSpec]
      · have hcc : Lexer.currentChars l = ch :: l.chars := by
          simp [Lexer.currentChars, hch]
        have hm1 : l.read_char.measure ≤ n := Lexer.measure_le_of_read_char_lt l n ch hch hb
        by_cases hq : ch = '"'
        · subst hq
          rw [hcc, closedSpec.eq_def]
          simp [Lexer.strLoop, hch]
        · by_cases hbs : ch = '\\'
          · subst hbs
            rcases hch1 : l.read_char.ch with _ | e
            · have hnil := Lexer.read_char_ch_none l hch1
              have h1 := ih l.read_char (some (.String .InvalidEscape)) hm1
              have h2 := ih l.read_char reason hm1
              rw [Lexer.currentChars_read_char, hnil] at h1 h2
              rw [hcc, hnil, closedSpec.eq_def]
              by_cases hre : reason = none
              · rcases hr : Lexer.strLoop n l.read_char (some (.String .InvalidEscape))
                  with ⟨cs, cl, rr, lf⟩
                rw [hr] at h1
                simp only at h1
                simp [Lexer.strLoop, hch, hch1, hre, hr, h1, closedSpec]
              · rcases hr : Lexer.strLoop n l.read_char reason with ⟨cs, cl, rr, lf⟩
                rw [hr] at h2
                simp only at h2
                simp [Lexer.strLoop, hch, hch1, hre, hr, h2, closedSpec]
            · have hrest := Lexer.read_char_ch_some l e hch1
              have hccr : Lexer.currentChars l.read_char = e :: l.read_char.chars := by
                rw [Lexer.currentChars_read_char, hrest]
              rw [hcc, hrest, closedSpec.eq_def]
              simp only [if_true, reduceIte]
              by_cases hesc : isEscapable e
              · have hm2 : l.read_char.read_char.measure ≤ n :=
                  (Lexer.read_char_measure_le _).trans hm1
                have h1 := ih l.read_char.read_char reason hm2
                rw [Lexer.currentChars_read_char] at h1
                rcases hr : Lexer.strLoop n l.read_char.read_char reason with ⟨cs, cl, rr, lf⟩
                rw [hr] at h1
                simp only at h1
                simp [Lexer.strLoop, hch, hch1, hesc, hr, h1]
              · by_cases hre : reason = none
                · by_cases hu : e = 'u'
                  · subst hu
                    subst hre
                    have hm2 : l.read_char.read_char.measure ≤ n :=
                      (Lexer.read_char_measure_le _).trans hm1
                    have hm3 : (Lexer.is_legal_unicode l.read_char.read_char).2.2.measure ≤ n :=
                      (Lexer.is_legal_unicode_measure_le _).trans hm2
                    have hcc2 : Lexer.currentChars l.read_char.read_char = l.read_char.chars :=
                      Lexer.currentChars_read_char _
                    rcases Lexer.is_legal_unicode_cases l.read_char.read_char with
                      ⟨hu1, hu2, hu3⟩ | ⟨hu1, hu2, k, hk1, hk2⟩
                    · rw [hcc2] at hu1 hu3
                      have h1 := ih (Lexer.is_legal_unicode l.read_char.read_char).2.2 none hm3
                      rw [hu3] at h1
                      rcases hiu : Lexer.is_legal_unicode l.read_char.read_char with ⟨r1, hx, l3⟩
                      rw [hiu] at hu2 h1
                      simp only at hu2 h1
                      subst hu2
                      rcases hr : Lexer.strLoop n l3 none with ⟨cs, cl, rr, lf⟩
                      rw [hr] at h1
                      simp only at h1
                      have hspec : closedSpec ('u' :: l.read_char.chars) =
                          closedSpec (l.read_char.chars.drop 4) := by
                        rw [closedSpec.eq_def]
                        simp only [reduceIte]
                        conv =>
                          lhs
                          rw [← List.take_append_drop 4 l.read_char.chars]
                        exact closedSpec_append_plain _ _ fun c hc => by
                          have := List.all_eq_true.mp hu1.2.1 c hc
                          exact ⟨(hex_plain c this).1, (hex_plain c this).2.1⟩
                      simp [Lexer.strLoop, hch, hch1, hesc, hiu, hr, h1, hspec]
                    · rw [hcc2] at hu1 hk1 hk2
                      have h1 := ih (Lexer.is_legal_unicode l.read_char.read_char).2.2
                        (some (.String .InvalidUnicode)) hm3
                      rw [hk2] at h1
                      rcases hiu : Lexer.is_legal_unicode l.read_char.read_char with ⟨r1, hx, l3⟩
                      rw [hiu] at hu2 h1
                      simp only at hu2 h1
                      subst hu2
                      rcases hr : Lexer.strLoop n l3 (some (.String .InvalidUnicode))
                        with ⟨cs, cl, rr, lf⟩
                      rw [hr] at h1
                      simp only at h1
                      have hspec : closedSpec ('u' :: l.read_char.chars) =
                          closedSpec (l.read_char.chars.drop k) := by
                        rw [closedSpec.eq_def]
                        simp only [reduceIte]
                        conv =>
                          lhs
                          rw [← List.take_append_drop k l.read_char.chars]
                        exact closedSpec_append_plain _ _ fun c hc => by
                          have := List.all_eq_true.mp hk1 c hc
                          exact ⟨(hex_plain c this).1, (hex_plain c this).2.1⟩
                      simp [Lexer.strLoop, hch, hch1, hesc, hiu, hr, h1, hspec]
                  · subst hre
                    have h1 := ih l.read_char (some (.String .InvalidEscape)) hm1
                    rw [hccr] at h1
                    rcases hr : Lexer.strLoop n l.read_char (some (.String .InvalidEscape))
                      with ⟨cs, cl, rr, lf⟩
                    rw [hr] at h1
                    simp only at h1
                    simp [Lexer.strLoop, hch, hch1, hesc, hu, hr, h1]
                · have h1 := ih l.read_char reason hm1
                  rw [hccr] at h1
                  rcases hr : Lexer.strLoop n l.read_char reason with ⟨cs, cl, rr, lf⟩
                  rw [hr] at h1
                  simp only at h1
                  simp [Lexer.strLoop, hch, hch1, hesc, hre, hr, h1]
          · have h1 := ih l.read_char (updateStrReason ch reason) hm1
            rw [Lexer.currentChars_read_char] at h1
            rcases hr : Lexer.strLoop n l.read_char (updateStrReason ch reason)
              with ⟨cs, cl, rr, lf⟩
            rw [hr] at h1
            simp only at h1
            rw [hcc, closedSpec.eq_def]
            simp [Lexer.strLoop, hch, hq, hbs, hr, h1]

theorem Lexer.strLoop_first_defect (n : Nat) (l : Lexer) (hb : l.measure ≤ n) :
    (Lexer.strLoop n l none).2.2.1 =
      (firstDefectSpec (Lexer.currentChars l)).map IllegalReason.String := by
  induction n generalizing l with
  | zero =>
      have hch := Lexer.measure_zero_ch l (by omega)
      simp [Lexer.strLoop, Lexer.currentChars, hch, firstDefectSpec]
  | succ n ih =>
      rcases hch : l.ch with _ | ch
      · simp [Lexer.strLoop, Lexer.currentChars, hch, firstDefectSpec]
      · have hcc : Lexer.currentChars l = ch :: l.chars := by
          simp [Lexer.currentChars, hch]
        have hm1 : l.read_char.measure ≤ n := Lexer.measure_le_of_read_char_lt l n ch hch hb
        by_cases hq : ch = '"'
        · subst hq
          rw [hcc, firstDefectSpec.eq_def]
          simp [Lexer.strLoop, hch]
        · by_cases hbs : ch = '\\'
          · subst hbs
            rcases hch1 : l.read_char.ch with _ | e
            · have hnil := Lexer.read_char_ch_none l hch1
              have h1 := Lexer.strLoop_reason_some n l.read_char (.String .InvalidEscape)
              rcases hr : Lexer.strLoop n l.read_char (some (.String .InvalidEscape))
                with ⟨cs, cl, rr, lf⟩
              rw [hr] at h1
              simp only at h1
              rw [hcc, hnil, firstDefectSpec.eq_def]
              simp [Lexer.strLoop, hch, hch1, hr, h1]
            · have hrest := Lexer.read_char_ch_some l e hch1
              have hccr : Lexer.currentChars l.read_char = e :: l.read_char.chars := by
                rw [Lexer.currentChars_read_char, hrest]
              rw [hcc, hrest, firstDefectSpec.eq_def]
              simp only [if_true, reduceIte]
              by_cases hesc : isEscapable e
              · have hm2 : l.read_char.read_char.measure ≤ n :=
                  (Lexer.read_char_measure_le _).trans hm1
                have h1 := ih l.read_char.read_char hm2
                rw [Lexer.currentChars_read_char] at h1
                rcases hr : Lexer.strLoop n l.read_char.read_char none with ⟨cs, cl, rr, lf⟩
                rw [hr] at h1
                simp only at h1
                simp [Lexer.strLoop, hch, hch1, hesc, hr, h1]
              · by_cases hu : e = 'u'
                · subst hu
                  have hm2 : l.read_char.read_char.measure ≤ n :=
                    (Lexer.read_char_measure_le _).trans hm1
                  have hm3 : (Lexer.is_legal_unicode l.read_char.read_char).2.2.measure ≤ n :=
                    (Lexer.is_legal_unicode_measure_le _).trans hm2
                  have hcc2 : Lexer.currentChars l.read_char.read_char = l.read_char.chars :=
                    Lexer.currentChars_read_char _
                  rcases Lexer.is_legal_unicode_cases l.read_char.read_char with
                    ⟨hu1, hu2, hu3⟩ | ⟨hu1, hu2, k, hk1, hk2⟩
                  · rw [hcc2] at hu1 hu3
                    have h1 := ih (Lexer.is_legal_unicode l.read_char.read_char).2.2 hm3
                    rw [hu3] at h1
                    rcases hiu : Lexer.is_legal_unicode l.read_char.read_char with ⟨r1, hx, l3⟩
                    rw [hiu] at hu2 h1
                    simp only at hu2 h1
                    subst hu2
                    rcases hr : Lexer.strLoop n l3 none with ⟨cs, cl, rr, lf⟩
                    rw [hr] at h1
                    simp only at h1
                    simp [Lexer.strLoop, hch, hch1, hesc, hiu, hr, h1, hu1]
                  · rw [hcc2] at hu1 hk1 hk2
                    have h1 := Lexer.strLoop_reason_some n
                      (Lexer.is_legal_unicode l.read_char.read_char).2.2 (.String .InvalidUnicode)
                    rcases hiu : Lexer.is_legal_unicode l.read_char.read_char with ⟨r1, hx, l3⟩
                    rw [hiu] at hu2 h1
                    simp only at hu2 h1
                    subst hu2
                    rcases hr : Lexer.strLoop n l3 (some (.String .InvalidUnicode))
                      with ⟨cs, cl, rr, lf⟩
                    rw [hr] at h1
                    simp only at h1
                    simp [Lexer.strLoop, hch, hch1, hesc, hiu, hr, h1, hu1]
                · have h1 := Lexer.strLoop_reason_some n l.read_char (.String .InvalidEscape)
                  rcases hr : Lexer.strLoop n l.read_char (some (.String .InvalidEscape))
                    with ⟨cs, cl, rr, lf⟩
                  rw [hr] at h1
                  simp only at h1
                  simp [Lexer.strLoop, hch, hch1, hesc, hu, hr, h1]
          · by_cases ht : ch = '\t'
            · subst ht
              have h1 := Lexer.strLoop_reason_some n l.read_char (.String .UnescapedTab)
              have hup : updateStrReason '\t' none = some (.String .UnescapedTab) := by
                simp [updateStrReason]
              rcases hr : Lexer.strLoop n l.read_char (updateStrReason '\t' none)
                with ⟨cs, cl, rr, lf⟩
              rw [hup] at hr
              rw [hr] at h1
              simp only at h1
              rw [hcc, firstDefectSpec.eq_def]
              simp [Lexer.strLoop, hch, hq, hbs, hup, hr, h1]
            · by_cases hn : ch = '\n'
              · subst hn
                have h1 := Lexer.strLoop_reason_some n l.read_char (.String .UnescapedNewLine)
                have hup : updateStrReason '\n' none = some (.String .UnescapedNewLine) := by
                  simp [updateStrReason]
                rcases hr : Lexer.strLoop n l.read_char (updateStrReason '\n' none)
                  with ⟨cs, cl, rr, lf⟩
                rw [hup] at hr
                rw [hr] at h1
                simp only at h1
                rw [hcc, firstDefectSpec.eq_def]
                simp [Lexer.strLoop, hch, hq, hbs, hup, hr, h1]
              · have hup : updateStrReason ch none = none := by
                  simp [updateStrReason, ht, hn]
                have h1 := ih l.read_char hm1
                rw [Lexer.currentChars_read_char] at h1
                rcases hr : Lexer.strLoop n l.read_char (updateStrReason ch none)
                  with ⟨cs, cl, rr, lf⟩
                rw [hup] at hr
                rw [hr] at h1
                simp only at h1
                rw [hcc, firstDefectSpec.eq_def]
                simp [Lexer.strLoop, hch, hq, hbs, ht, hn, hup, hr, h1]

theorem Lexer.read_string_spec (l : Lexer) :
    (l.read_string).2.1 =
      if closedSpec l.chars then (firstDefectSpec l.chars).map IllegalReason.String
      else some (.String .MissingClosingQuote) := by
  unfold Lexer.read_string
  have hA := Lexer.strLoop_closed l.read_char.measure l.read_char none (Nat.le_refl _)
  have hC := Lexer.strLoop_first_defect l.read_char.measure l.read_char (Nat.le_refl _)
  rw [Lexer.currentChars_read_char] at hA hC
  rcases hr : Lexer.strLoop l.read_char.measure l.read_char none with ⟨cs, cl, rr, lf⟩
  rw [hr] at hA hC
  simp only at hA hC
  subst hA
  by_cases hcl : closedSpec l.chars
  · simp [hcl, hC]
  · simp [hcl]

theorem Lexer.skipWSLoop_none (n : Nat) (l : Lexer) (hch : l.ch = none) :
    Lexer.skipWSLoop n l = l := by
  cases n with
  | zero => rfl
  | succ n =>
      unfold Lexer.skipWSLoop
      split <;> simp_all

theorem classifyNumber_ne_eof (num : List Char) : classifyNumber num ≠ .Eof := by
  unfold classifyNumber
  split
  · simp
  · split
    · simp
    · split
      · simp
      · split
        · simp
        · split
          · simp
          · split
            · simp
            · split <;> simp

theorem Lexer.tokenAfterWS_eof (l : Lexer) (h : LexInv l)
    (hk : (Lexer.tokenAfterWS l).1.kind = .Eof) :
    l.ch = none ∧ (Lexer.tokenAfterWS l).2 = l.read_char := by
  unfold Lexer.tokenAfterWS at hk ⊢
  split at hk
  · simp [Lexer.singleChar] at hk
  · simp [Lexer.singleChar] at hk
  · simp [Lexer.singleChar] at hk
  · simp [Lexer.singleChar] at hk
  · simp [Lexer.singleChar] at hk
  · simp [Lexer.singleChar] at hk
  · rcases hr : l.read_string with ⟨str, rs, l'⟩
    rw [hr] at hk
    simp only at hk
    cases rs <;> simp at hk
  · rcases hr : l.read_ident with ⟨ident, l'⟩
    rw [hr] at hk
    simp only at hk
    split at hk <;> (try split at hk) <;> (try split at hk) <;> simp_all
  · rcases hr : l.read_ident with ⟨ident, l'⟩
    rw [hr] at hk
    simp only at hk
    split at hk <;> (try split at hk) <;> (try split at hk) <;> simp_all
  · rcases hr : l.read_ident with ⟨ident, l'⟩
    rw [hr] at hk
    simp only at hk
    split at hk <;> (try split at hk) <;> (try split at hk) <;> simp_all
  · rename_i c d1 d2 d3 d4 d5 d6 d7 d8 d9 d10 hch
    split at hk
    · rcases hr : l.read_number with ⟨num, l'⟩
      rw [hr] at hk
      simp only at hk
      exact absurd hk (classifyNumber_ne_eof num)
    · split at hk
      · rename_i hpos
        have := Lexer.inv_some_lt l h.1 c hch
        omega
      · simp at hk
  · rename_i a hch
    have hge := Lexer.inv_none_ge l h.1 hch
    refine ⟨hch, ?_⟩
    simp [hge]

theorem Lexer.read_char_none_of_nil (l : Lexer) (hc : l.chars = []) :
    l.read_char.ch = none := by
  unfold Lexer.read_char
  rw [hc]

theorem Lexer.inv_none_chars (l : Lexer) (h : LexInv l) (hch : l.ch = none) :
    l.chars = [] := by
  have := h.1
  simp only [ByteInv, hch] at this
  exact this.1

theorem Lexer.next_token_of_none (l : Lexer) (h : LexInv l) (hch : l.ch = none) :
    (Lexer.next_token l).1.kind = .Eof ∧ (Lexer.next_token l).2.ch = none := by
  have hws : l.skip_whitespace = l := Lexer.skipWSLoop_none _ l hch
  have hge := Lexer.inv_none_ge l h.1 hch
  have hnil := Lexer.inv_none_chars l h hch
  unfold Lexer.next_token
  rw [hws]
  unfold Lexer.tokenAfterWS
  rw [hch]
  simp only [hge, if_pos]
  constructor
  · simp [hge]
  · simp [hge, Lexer.read_char_none_of_nil l hnil]

/-- Iterated application of `next_token`'s state transition. -/
def lexIterate : Nat → Lexer → Lexer
  | 0, l => l
  | n + 1, l => lexIterate n (Lexer.next_token l).2

theorem Lexer.eof_stable (l : Lexer) (h : LexInv l) (hch : l.ch = none) :
    ∀ k, (Lexer.next_token (lexIterate k l)).1.kind = .Eof := by
  have step : ∀ m : Lexer, LexInv m → m.ch = none →
      LexInv (Lexer.next_token m).2 ∧ (Lexer.next_token m).2.ch = none := by
    intro m hm hmch
    exact ⟨Lexer.next_token_inv m hm, (Lexer.next_token_of_none m hm hmch).2⟩
  intro k
  induction k generalizing l with
  | zero => exact (Lexer.next_token_of_none l h hch).1
  | succ k ih =>
      have hs := step l h hch
      exact ih (Lexer.next_token l).2 hs.1 hs.2

theorem parse_root_object_trailing (fuel : Nat) (s : ParserState) (v : JsonValue)
    (s1 : ParserState) (h : parse_object fuel s = some (Except.ok (v, s1)))
    (hne : s1.next_token.peek_token.kind ≠ .Eof) :
    parse_root_object fuel s = some (.error (ExpectedTokenError.with_offset [.Eof]
      s1.next_token.peek_token.kind s1.next_token.peek_token.origin
      s1.next_token.lexer.row s1.next_token.lexer.column)) := by
  unfold parse_root_object
  rw [h]
  simp only
  rw [if_neg fun hc => hne hc.2]

theorem parse_root_array_trailing (fuel : Nat) (s : ParserState) (v : JsonValue)
    (s1 : ParserState) (h : parse_array fuel s = some (Except.ok (v, s1)))
    (hne : s1.next_token.peek_token.kind ≠ .Eof) :
    parse_root_array fuel s = some (.error (ExpectedTokenError.with_offset [.Eof]
      s1.next_token.peek_token.kind s1.next_token.peek_token.origin
      s1.next_token.lexer.row s1.next_token.lexer.column)) := by
  unfold parse_root_array
  rw [h]
  simp only
  rw [if_neg fun hc => hne hc.2]

theorem parse_root_object_ok (fuel : Nat) (s : ParserState) (v : JsonValue)
    (h : parse_root_object fuel s = some (Except.ok v)) :
    ∃ s1, parse_object fuel s = some (Except.ok (v, s1)) ∧
      s1.next_token.current_token.kind = .RBrace ∧
      s1.next_token.peek_token.kind = .Eof := by
  unfold parse_root_object at h
  rcases ho : parse_object fuel s with _ | r
  · rw [ho] at h
    simp at h
  · rcases r with e | ⟨v1, s1⟩
    · rw [ho] at h
      simp at h
    · rw [ho] at h
      simp only at h
      split at h
      · rename_i hc
        refine ⟨s1, ?_, hc.1, hc.2⟩
        simp only [Option.some.injEq, Except.ok.injEq] at h
        rw [h]
      · simp at h

theorem parse_root_array_ok (fuel : Nat) (s : ParserState) (v : JsonValue)
    (h : parse_root_array fuel s = some (Except.ok v)) :
    ∃ s1, parse_array fuel s = some (Except.ok (v, s1)) ∧
      s1.next_token.current_token.kind = .RBracket ∧
      s1.next_token.peek_token.kind = .Eof := by
  unfold parse_root_array at h
  rcases ho : parse_array fuel s with _ | r
  · rw [ho] at h
    simp at h
  · rcases r with e | ⟨v1, s1⟩
    · rw [ho] at h
      simp at h
    · rw [ho] at h
      simp only at h
      split at h
      · rename_i hc
        refine ⟨s1, ?_, hc.1, hc.2⟩
        simp only [Option.some.injEq, Except.ok.injEq] at h
        rw [h]
      · simp at h

theorem parse_root_scalar_rejected (fuel : Nat) (s : ParserState)
    (h1 : s.peek_token.kind ≠ .LBrace) (h2 : s.peek_token.kind ≠ .LBracket) :
    ParserState.parse fuel s = some (.error (ExpectedTokenError.with_offset
      [.LBrace, .LBracket] s.current_token.kind s.current_token.origin
      s.lexer.row s.lexer.column)) := by
  unfold ParserState.parse
  rcases hpk : s.peek_token.kind with
    _ | _ | _ | _ | _ | _ | _ | _ | _ | _ | _ | reason | _ <;> simp_all

/-- Whether an `expect_peek` result is an acceptance. -/
def expectOk (r : Except ExpectedTokenError ParserState) : Bool :=
  match r with
  | .ok _ => true
  | .error _ => false

/-- Replace the kind of the lookahead token by `Illegal r`, keeping
everything else of the state. -/
def withPeek (s : ParserState) (r : Option IllegalReason) : ParserState :=
  { s with peek_token := { s.peek_token with kind := .Illegal r } }

/-- C1 (counterexample): the run `1e` ends in `e`, which matches none of the
illegal-number patterns, so the lexer classifies `1e` as a `Number` token —
not as `Illegal (MissingExponent)` as the claim states. -/
theorem c1_counterexample :
    (Lexer.next_token (Lexer.new ['1', 'e'])).1 = ⟨.Number, ['1', 'e'], 1⟩ ∧
    TokenKind.Number ≠ .Illegal (some (.Number .MissingExponent)) := by
  constructor
  · decide
  · decide

/-- C1 (amended): on a current character `-` or digit, `next_token` captures
the maximal run of characters from `[0-9.+-eE]` and classifies it by the
first matching rule of `classifyNumber` (leading zero+digit → LeadingZero;
leading zero+e/E → MissingExponent; minus+dot → InvalidFractionPart; run
ending in `.` → MissingFraction; ending in `-` → MinusMissingDigit; ending
in `+` → MissingExponent; a `.e`/`.E` pair anywhere → MissingFraction;
otherwise Number).  `0` is legal, `00` is LeadingZero, a lone `-` is
MinusMissingDigit, `1.` is MissingFraction — but `1e` is a `Number` at the
lexer level (its `f64` conversion fails later, in the parser). -/
theorem c1_number_classification :
    (∀ (l : Lexer) (c : Char), l.ch = some c → (c = '-' ∨ c.isDigit = true) →
      Lexer.next_token l =
        (⟨classifyNumber ((Lexer.currentChars l).takeWhile isNumChar),
          (Lexer.currentChars l).takeWhile isNumChar, l.column⟩, (l.read_number).2)) ∧
    classifyNumber ['0'] = .Number ∧
    classifyNumber ['0', '0'] = .Illegal (some (.Number .LeadingZero)) ∧
    classifyNumber ['0', 'e', '5'] = .Illegal (some (.Number .MissingExponent)) ∧
    classifyNumber ['-', '.', '5'] = .Illegal (some (.Number .InvalidFractionPart)) ∧
    classifyNumber ['1', '.'] = .Illegal (some (.Number .MissingFraction)) ∧
    classifyNumber ['-'] = .Illegal (some (.Number .MinusMissingDigit)) ∧
    classifyNumber ['1', 'e', '+'] = .Illegal (some (.Number .MissingExponent)) ∧
    classifyNumber ['1', '.', 'e', '5'] = .Illegal (some (.Number .MissingFraction)) ∧
    classifyNumber ['1', 'e'] = .Number :=
  ⟨Lexer.next_token_number, by decide⟩

/-- C1 (witness): the amended theorem applied to the input `00`. -/
theorem c1_witness :
    Lexer.next_token (Lexer.new ['0', '0']) =
      (⟨classifyNumber ((Lexer.currentChars (Lexer.new ['0', '0'])).takeWhile isNumChar),
        (Lexer.currentChars (Lexer.new ['0', '0'])).takeWhile isNumChar,
        (Lexer.new ['0', '0']).column⟩, ((Lexer.new ['0', '0']).read_number).2) :=
  c1_number_classification.1 (Lexer.new ['0', '0']) '0' (by decide) (Or.inr (by decide))

/-- C2: the root must be an object or array whose closing delimiter is
immediately followed by `Eof`.  When the root object/array parses but the
next token after its closing delimiter is not `Eof`, the root parse fails
with an error expecting exactly `[Eof]`; when it succeeds, the token after
the closing delimiter is `Eof`; and a root that is neither `{` nor `[` is
rejected immediately. -/
theorem c2_root_requires_eof :
    (∀ (fuel : Nat) (s : ParserState) (v : JsonValue) (s1 : ParserState),
        parse_object fuel s = some (Except.ok (v, s1)) →
        s1.next_token.peek_token.kind ≠ .Eof →
        ∃ e, parse_root_object fuel s = some (.error e) ∧ e.expected = [.Eof]) ∧
    (∀ (fuel : Nat) (s : ParserState) (v : JsonValue) (s1 : ParserState),
        parse_array fuel s = some (Except.ok (v, s1)) →
        s1.next_token.peek_token.kind ≠ .Eof →
        ∃ e, parse_root_array fuel s = some (.error e) ∧ e.expected = [.Eof]) ∧
    (∀ (fuel : Nat) (s : ParserState) (v : JsonValue),
        parse_root_object fuel s = some (Except.ok v) →
        ∃ s1, parse_object fuel s = some (Except.ok (v, s1)) ∧
          s1.next_token.peek_token.kind = .Eof) ∧
    (∀ (fuel : Nat) (s : ParserState) (v : JsonValue),
        parse_root_array fuel s = some (Except.ok v) →
        ∃ s1, parse_array fuel s = some (Except.ok (v, s1)) ∧
          s1.next_token.peek_token.kind = .Eof) ∧
    (∀ (fuel : Nat) (s : ParserState),
        s.peek_token.kind ≠ .LBrace → s.peek_token.kind ≠ .LBracket →
        ∃ e, ParserState.parse fuel s = some (.error e) ∧
          e.expected = [.LBrace, .LBracket]) := by
  refine ⟨?_, ?_, ?_, ?_, ?_⟩
  · intro fuel s v s1 h hne
    exact ⟨_, parse_root_object_trailing fuel s v s1 h hne, rfl⟩
  · intro fuel s v s1 h hne
    exact ⟨_, parse_root_array_trailing fuel s v s1 h hne, rfl⟩
  · intro fuel s v h
    obtain ⟨s1, h1, _, h3⟩ := parse_root_object_ok fuel s v h
    exact ⟨s1, h1, h3⟩
  · intro fuel s v h
    obtain ⟨s1, h1, _, h3⟩ := parse_root_array_ok fuel s v h
    exact ⟨s1, h1, h3⟩
  · intro fuel s h1 h2
    exact ⟨_, parse_root_scalar_rejected fuel s h1 h2, rfl⟩

/-- C2 (witness): the trailing-content component applied to `{} {}`. -/
theorem c2_witness :
    ∃ e, parse_root_object 56 (ParserState.new "{} {}".toList) = some (.error e) ∧
      e.expected = [.Eof] := by
  have hobj : parse_object 56 (ParserState.new "{} {}".toList) =
      some (Except.ok ((JsonValue.Object []),
        ⟨⟨5, 2, 3, 1, 3, some ' ', ['{', '}']⟩,
         ⟨.LBrace, ['{'], 1⟩, ⟨.RBrace, ['}'], 2⟩⟩)) := rfl
  exact c2_root_requires_eof.1 56 _ _ _ hobj (by decide)

/-- C3: evaluation at the failing input `[è]`.  The offending token `è`
starts at 1-based column 2 (its recorded `start_column`), but the error's
column field is 1: `with_offset` subtracts the origin's byte length (2 for
`è`) from a column counter that counts characters.  The repo's own test
`parse_invalid_utf8` documents the character-accurate expectation.
Moreover `Display` subtracts `origin.len()` a second time, rendering
column −1, inconsistent with the stored field. -/
theorem c3_column_bug :
    errOf (parseInput ['[', 'è', ']']) =
      some ⟨valueKinds, .Illegal none, ['è'], 1, 1⟩ ∧
    (Lexer.next_token (Lexer.next_token (Lexer.new ['[', 'è', ']'])).2).1 =
      ⟨.Illegal none, ['è'], 2⟩ ∧
    ExpectedTokenError.displayColumn ⟨valueKinds, .Illegal none, ['è'], 1, 1⟩ = -1 := by
  refine ⟨by decide, by decide, by decide⟩

/-- C4 (counterexample): in the unterminated string `"\x` the first defect
encountered is the invalid escape `\x`, but the token's recorded reason is
`MissingClosingQuote` — the missing-quote defect overrides the first
recorded one. -/
theorem c4_counterexample :
    (Lexer.next_token (Lexer.new ['"', '\\', 'x'])).1.kind =
      .Illegal (some (.String .MissingClosingQuote)) ∧
    firstDefectSpec ['\\', 'x'] = some .InvalidEscape ∧
    IllegalString.InvalidEscape ≠ IllegalString.MissingClosingQuote := by
  refine ⟨by decide, ?_, by decide⟩
  rw [firstDefectSpec.eq_def]
  simp [isEscapable]

/-- C4 (amended): among the four in-string defects (invalid escape, invalid
unicode, unescaped tab, unescaped newline) the first defect in left-to-right
scan order wins and later defects never override it; but when the closing
quote is missing, the resulting reason is always `MissingClosingQuote`,
overriding any recorded in-string defect. -/
theorem c4_first_defect_wins (l : Lexer) :
    (l.read_string).2.1 =
      if closedSpec l.chars then (firstDefectSpec l.chars).map IllegalReason.String
      else some (.String .MissingClosingQuote) :=
  Lexer.read_string_spec l

/-- C5 (counterexample): `expect_peek` compares token kinds with the derived
structural equality, so with expected kind `Illegal None` a lookahead of
kind `Illegal None` is accepted while `Illegal (Character x)` is rejected —
the accept/reject outcome does depend on the payload for an `Illegal`
expected kind, refuting the claim's quantification over every expected
`TokenKind`. -/
theorem c5_counterexample :
    expectOk (ParserState.expect_peek
      ⟨Lexer.new [], Token.default, ⟨.Illegal none, [], 0⟩⟩ (.Illegal none)) = true ∧
    expectOk (ParserState.expect_peek
      ⟨Lexer.new [], Token.default,
        ⟨.Illegal (some (.Character 'x')), [], 0⟩⟩ (.Illegal none)) = false := by
  refine ⟨by decide, by decide⟩

/-- C5 (amended): for every expected kind that is not itself `Illegal` — in
particular the kinds the parser actually passes to `expect_peek` (`String`,
`Colon`, `LBrace`, `LBracket`) — the accept/reject outcome on a lookahead of
kind `Illegal r` is independent of the payload `r`; and `parse_value`'s
dispatch sends a lookahead of kind `Illegal r`, for every payload `r`, to
the same error arm listing the seven acceptable value kinds. -/
theorem c5_payload_ignored :
    (∀ (expected : TokenKind) (s : ParserState) (r1 r2 : Option IllegalReason),
      (∀ r, expected ≠ .Illegal r) →
      expectOk (ParserState.expect_peek (withPeek s r1) expected) =
        expectOk (ParserState.expect_peek (withPeek s r2) expected)) ∧
    (∀ (fuel : Nat) (s : ParserState) (r : Option IllegalReason),
      ∃ e, parse_value (fuel + 1) (withPeek s r) = some (.error e) ∧
        e.expected = valueKinds) := by
  constructor
  · intro expected s r1 r2 hne
    have h1 : (withPeek s r1).peek_token.kind ≠ expected := by
      simp only [withPeek]
      exact fun hc => hne r1 hc.symm
    have h2 : (withPeek s r2).peek_token.kind ≠ expected := by
      simp only [withPeek]
      exact fun hc => hne r2 hc.symm
    unfold ParserState.expect_peek
    rw [if_pos h1, if_pos h2]
    rfl
  · intro fuel s r
    refine ⟨ExpectedTokenError.with_offset valueKinds (.Illegal r)
      s.peek_token.origin s.lexer.row s.lexer.column, ?_, rfl⟩
    simp [parse_value, withPeek]

/-- C5 (witness): the amended theorem applied with expected kind `Colon` and
payloads `None` / `Character x`, and the dispatch component at fuel 1. -/
theorem c5_witness :
    expectOk (ParserState.expect_peek
        (withPeek ⟨Lexer.new [], Token.default, Token.default⟩ none) .Colon) =
      expectOk (ParserState.expect_peek
        (withPeek ⟨Lexer.new [], Token.default, Token.default⟩
          (some (.Character 'x'))) .Colon) ∧
    ∃ e, parse_value 1 (withPeek ⟨Lexer.new [], Token.default, Token.default⟩ none) =
        some (.error e) ∧ e.expected = valueKinds :=
  ⟨c5_payload_ignored.1 .Colon ⟨Lexer.new [], Token.default, Token.default⟩ none
      (some (.Character 'x')) (fun r h => TokenKind.noConfusion h),
    c5_payload_ignored.2 0 ⟨Lexer.new [], Token.default, Token.default⟩ none⟩

/-- C6: a `\u` escape is legal exactly when the `u` is followed by at least
4 characters whose first 4 are hex digits with value at most 0x10FFFF (the
value bound is automatic for 4 hex digits); otherwise the defect is
`InvalidUnicode`.  `"\u1234"` and the surrogate-range `"\uda00"` lex as
legal strings; `"\u12"` (only 2 hex digits before the quote) is
`Illegal (InvalidUnicode)`. -/
theorem c6_unicode_escape :
    (∀ l : Lexer,
      ((Lexer.is_legal_unicode l).1 = none ↔ uniOK (Lexer.currentChars l)) ∧
      (¬ uniOK (Lexer.currentChars l) →
        (Lexer.is_legal_unicode l).1 = some (.String .InvalidUnicode))) ∧
    (Lexer.next_token (Lexer.new "\"\\u1234\"".toList)).1.kind = .String ∧
    (Lexer.next_token (Lexer.new "\"\\uda00\"".toList)).1.kind = .String ∧
    (Lexer.next_token (Lexer.new "\"\\u12\"".toList)).1.kind =
      .Illegal (some (.String .InvalidUnicode)) := by
  refine ⟨fun l => ⟨Lexer.is_legal_unicode_none_iff l, fun hno => ?_⟩,
    by decide, by decide, by decide⟩
  rcases Lexer.is_legal_unicode_cases l with ⟨h1, _, _⟩ | ⟨_, h2, _⟩
  · exact absurd h1 hno
  · exact h2

/-- C6 (witness): the invalid-unicode component applied to the concrete
state whose pending characters are `x`. -/
theorem c6_witness :
    (Lexer.is_legal_unicode (Lexer.new ['x'])).1 = some (.String .InvalidUnicode) :=
  (c6_unicode_escape.1 (Lexer.new ['x'])).2 (by decide)

/-- C7: `next_token` is a total function — on every lexer state it returns a
token and a successor state — and an unrecognized character (not a
delimiter, quote, ident or number start, or whitespace) within the input
yields a token of kind `Illegal None` rather than any error: the return
type has no error alternative. -/
theorem c7_total :
    (∀ l : Lexer, ∃ t l', Lexer.next_token l = (t, l')) ∧
    (∀ (l : Lexer) (c : Char), l.ch = some c →
      c ∉ ['{', '}', '[', ']', ':', ',', '"', 't', 'f', 'n', '-', ' ', '\t', '\r', '\n'] →
      c.isDigit = false → l.position < l.inputLen →
      (Lexer.next_token l).1.kind = .Illegal none) := by
  constructor
  · exact fun l => ⟨_, _, rfl⟩
  · intro l c hch hnr hnd hpos
    simp only [List.mem_cons, not_or] at hnr
    obtain ⟨n1, n2, n3, n4, n5, n6, n7, n8, n9, n10, n11, n12, n13, n14, n15, -⟩ := hnr
    have hws := Lexer.skip_whitespace_eq_self l c hch n12 n13 n14 n15
    unfold Lexer.next_token
    rw [hws]
    unfold Lexer.tokenAfterWS
    split
    · rename_i heq
      rw [hch] at heq
      injection heq with h
      exact absurd h n1
    · rename_i heq
      rw [hch] at heq
      injection heq with h
      exact absurd h n2
    · rename_i heq
      rw [hch] at heq
      injection heq with h
      exact absurd h n3
    · rename_i heq
      rw [hch] at heq
      injection heq with h
      exact absurd h n4
    · rename_i heq
      rw [hch] at heq
      injection heq with h
      exact absurd h n5
    · rename_i heq
      rw [hch] at heq
      injection heq with h
      exact absurd h n6
    · rename_i heq
      rw [hch] at heq
      injection heq with h
      exact absurd h n7
    · rename_i heq
      rw [hch] at heq
      injection heq with h
      exact absurd h n8
    · rename_i heq
      rw [hch] at heq
      injection heq with h
      exact absurd h n9
    · rename_i heq
      rw [hch] at heq
      injection heq with h
      exact absurd h n10
    · rename_i c2 d1 d2 d3 d4 d5 d6 d7 d8 d9 d10 hch2
      rw [hch] at hch2
      injection hch2 with h
      subst h
      have hnot : ¬(c = '-' ∨ c.isDigit = true) := by
        rintro (h | h)
        · exact n11 h
        · rw [hnd] at h
          exact Bool.false_ne_true h
      rw [if_neg hnot, if_neg (by omega)]
    · rename_i a hch2
      rw [hch2] at hch
      simp at hch

/-- C7 (witness): totality and the Illegal-none outcome at the input `@`. -/
theorem c7_witness :
    (∃ t l', Lexer.next_token (Lexer.new ['@']) = (t, l')) ∧
    (Lexer.next_token (Lexer.new ['@'])).1.kind = .Illegal none :=
  ⟨c7_total.1 (Lexer.new ['@']),
    c7_total.2 (Lexer.new ['@']) '@' (by decide) (by decide) (by decide) (by decide)⟩

/-- C8: returning `Eof` is idempotent.  The lexer invariant holds at
`Lexer.new` and is preserved by `next_token`; and from any invariant state
whose `next_token` returns an `Eof` token, every subsequent call also
returns an `Eof` token. -/
theorem c8_eof_idempotent :
    (∀ input : List Char, LexInv (Lexer.new input)) ∧
    (∀ l : Lexer, LexInv l → LexInv (Lexer.next_token l).2) ∧
    (∀ l : Lexer, LexInv l → (Lexer.next_token l).1.kind = .Eof →
      ∀ k, (Lexer.next_token (lexIterate k (Lexer.next_token l).2)).1.kind = .Eof) := by
  refine ⟨Lexer.new_inv, Lexer.next_token_inv, ?_⟩
  intro l h hk k
  have hws := Lexer.skip_whitespace_inv l h
  obtain ⟨hnone, hst⟩ := Lexer.tokenAfterWS_eof l.skip_whitespace hws hk
  have hnil := Lexer.inv_none_chars _ hws hnone
  have hch2 : (Lexer.next_token l).2.ch = none := by
    show (Lexer.tokenAfterWS l.skip_whitespace).2.ch = none
    rw [hst]
    exact Lexer.read_char_none_of_nil _ hnil
  have hinv2 : LexInv (Lexer.next_token l).2 := Lexer.next_token_inv l h
  exact Lexer.eof_stable _ hinv2 hch2 k

/-- C8 (witness): the idempotence component applied to the empty input with
one intervening call. -/
theorem c8_witness :
    (Lexer.next_token (lexIterate 1 (Lexer.next_token (Lexer.new [])).2)).1.kind = .Eof :=
  c8_eof_idempotent.2.2 (Lexer.new []) (Lexer.new_inv []) (by decide) 1

/-- C9: parsing always terminates: with the linear fuel bound baked into
`parseInput`, the parser returns a result (`Ok` or a positioned error) on
every finite input — the fuel-exhausted outcome `none` never occurs. -/
theorem c9_parse_terminates (input : List Char) :
    ∃ r, parseInput input = some r := by
  rcases hr : parseInput input with _ | r
  · exact absurd hr (parseInput_ne_none input)
  · exact ⟨r, rfl⟩

/-- C10: evaluation at the failing inputs.  On `["x"\n"абвг"]` the error
site passes character-counted column 7 with an origin of byte length 8, so
`with_offset`'s `column - origin.len()` underflows (stored as −1 in the
`Int` model; a usize underflow panic in a Rust debug build).  On the
all-ASCII `[\n00]` the stored field is 1, but `Display`'s second
subtraction renders −1, so formatting underflows even for ASCII input. -/
theorem c10_underflow :
    errOf (parseInput "[\"x\"\n\"абвг\"]".toList) =
      some ⟨[.Comma, .RBracket], .String, "абвг".toList, 2, -1⟩ ∧
    errOf (parseInput ['[', '\n', '0', '0', ']']) =
      some ⟨valueKinds, .Illegal (some (.Number .LeadingZero)), ['0', '0'], 2, 1⟩ ∧
    ExpectedTokenError.displayColumn
      ⟨valueKinds, .Illegal (some (.Number .LeadingZero)), ['0', '0'], 2, 1⟩ = -1 := by
  refine ⟨by decide, by decide, by decide⟩

/-- C4 (amended, witness): the amended theorem applied to the state on the
well-formed string `"a"`. -/
theorem c4_witness :
    ((Lexer.new ['"', 'a', '"']).read_string).2.1 =
      if closedSpec (Lexer.new ['"', 'a', '"']).chars then
        (firstDefectSpec (Lexer.new ['"', 'a', '"']).chars).map IllegalReason.String
      else some (.String .MissingClosingQuote) :=
  c4_first_defect_wins (Lexer.new ['"', 'a', '"'])

/-- C9 (witness): termination on the concrete input `{}`. -/
theorem c9_witness : ∃ r, parseInput ['{', '}'] = some r :=
  c9_parse_terminates ['{', '}']
